import Mathlib

/-!
Verification development for the `wt-tracker` WebSocket gateway
(`src/lib/uws-tracker.ts`).

The gateway owns four uWebSockets handlers (`open`, `message`, `drain`,
`close`), a process-wide live-connection counter (`webSocketsCount`), a lazily
created per-connection `PeerContext` (stored as `ws.peer`), an inbound decode
path (`JSON.parse(decoder.end(new Uint8Array(message)))` where `decoder` is a
Node `StringDecoder`, i.e. a WHATWG replacement-mode UTF-8 decoder), and an
outbound `sendMessage` capability (`ws.send(JSON.stringify(json))` followed by
a verbose-diagnostics branch that dereferences `ws.peer.id`).

This file embeds those pieces shallowly:

* `Json` models the structured documents the gateway carries.  JavaScript
  numbers are modelled as integers (IEEE-754 float formatting is outside the
  scope of the embedding); strings are Lean strings (sequences of Unicode
  scalar values; lone UTF-16 surrogates do not arise in the model).
* `serializeChars` / `jsonStringify` model `JSON.stringify`.
* `parseVal` / `jsonParse` model `JSON.parse` (on the integer fragment).
* `utf8DecodeReplace` models the `StringDecoder` (replacement on malformed
  input, per WHATWG), `utf8ValidB` is strict UTF-8 validity, `utf8Encode` the
  outbound encoding used by the transport when sending a text frame.
* `GState`, `onMessage`, `onClose`, `runG`, ... model the handler state
  machine; tracker behaviour is a parameter (`TrackerBeh`), and calls into the
  tracker collaborator are logged (`TCall`).
-/

namespace WtTracker

/-- Structured documents (the values `JSON.parse` produces and
`JSON.stringify` accepts).  Numbers are modelled as integers. -/
inductive Json where
  | null
  | bool (b : Bool)
  | num (n : Int)
  | str (s : String)
  | arr (xs : List Json)
  | obj (kvs : List (String × Json))
deriving Repr

/-- The decimal digit character for `n ≤ 9` (explicit table so that facts
about each digit are provable by `decide`). -/
def digitChar (n : Nat) : Char :=
  match n with
  | 0 => '0' | 1 => '1' | 2 => '2' | 3 => '3' | 4 => '4'
  | 5 => '5' | 6 => '6' | 7 => '7' | 8 => '8' | _ => '9'

/-- Decimal digits of `n`, most significant first; `fuel`-driven so that the
definition is structurally recursive (take `fuel > n`). -/
def natToCharsAux : Nat → Nat → List Char
  | 0, _ => []
  | f + 1, n =>
    if n < 10 then [digitChar n]
    else natToCharsAux f (n / 10) ++ [digitChar (n % 10)]

/-- Decimal representation of a natural number, as `JSON.stringify` prints
it (no sign, no leading zeros). -/
def natToChars (n : Nat) : List Char := natToCharsAux (n + 1) n

/-- Decimal representation of an integer, as `JSON.stringify` prints it. -/
def intToChars (n : Int) : List Char :=
  if n < 0 then '-' :: natToChars n.natAbs else natToChars n.toNat

/-- Lowercase hexadecimal digit, as `JSON.stringify` prints `\u00XX`
escapes. -/
def hexDigitChar (n : Nat) : Char :=
  match n with
  | 0 => '0' | 1 => '1' | 2 => '2' | 3 => '3' | 4 => '4'
  | 5 => '5' | 6 => '6' | 7 => '7' | 8 => '8' | 9 => '9'
  | 10 => 'a' | 11 => 'b' | 12 => 'c' | 13 => 'd' | 14 => 'e' | _ => 'f'

/-- `U+007B` (left curly bracket). -/
def lbrace : Char := Char.ofNat 123

/-- `U+007D` (right curly bracket). -/
def rbrace : Char := Char.ofNat 125

/-- How `JSON.stringify` escapes one character inside a string literal:
quote and backslash get a backslash escape, the five short control escapes
are used where they exist, all other control characters become `\u00xx`,
everything else is emitted verbatim. -/
def escChar (c : Char) : List Char :=
  if c = '"' then ['\\', '"']
  else if c = '\\' then ['\\', '\\']
  else if c = Char.ofNat 8 then ['\\', 'b']
  else if c = Char.ofNat 9 then ['\\', 't']
  else if c = Char.ofNat 10 then ['\\', 'n']
  else if c = Char.ofNat 12 then ['\\', 'f']
  else if c = Char.ofNat 13 then ['\\', 'r']
  else if c.toNat < 32 then
    '\\' :: 'u' :: '0' :: '0' :: hexDigitChar (c.toNat / 16) :: [hexDigitChar (c.toNat % 16)]
  else [c]

/-- Escape every character of a string body. -/
def escapeList : List Char → List Char
  | [] => []
  | c :: cs => escChar c ++ escapeList cs

mutual

/-- The characters `JSON.stringify` emits for a value (no whitespace, object
members in stored order). -/
def serializeChars : Json → List Char
  | .null => "null".data
  | .bool true => "true".data
  | .bool false => "false".data
  | .num n => intToChars n
  | .str s => '"' :: escapeList s.data ++ ['"']
  | .arr xs => '[' :: serElems xs ++ [']']
  | .obj kvs => lbrace :: serMems kvs ++ [rbrace]

/-- Comma-separated serialization of array elements. -/
def serElems : List Json → List Char
  | [] => []
  | [x] => serializeChars x
  | x :: y :: xs => serializeChars x ++ ',' :: serElems (y :: xs)

/-- Comma-separated serialization of object members (`"key":value`). -/
def serMems : List (String × Json) → List Char
  | [] => []
  | [(k, v)] => '"' :: escapeList k.data ++ '"' :: ':' :: serializeChars v
  | (k, v) :: m :: kvs =>
    '"' :: escapeList k.data ++ '"' :: ':' :: serializeChars v ++ ',' :: serMems (m :: kvs)

end

/-- `JSON.stringify`, as used by the outbound send path
(`ws.send(JSON.stringify(json), false, false)`). -/
def jsonStringify (v : Json) : String := String.mk (serializeChars v)

/-- JSON insignificant whitespace. -/
def isWsChar (c : Char) : Bool :=
  c = ' ' ∨ c = Char.ofNat 9 ∨ c = Char.ofNat 10 ∨ c = Char.ofNat 13

/-- Drop leading JSON whitespace. -/
def skipWs : List Char → List Char
  | [] => []
  | c :: cs => if isWsChar c then skipWs cs else c :: cs

/-- Consume a maximal run of decimal digits, folding them onto `acc`. -/
def parseDigits (acc : Nat) : List Char → Nat × List Char
  | [] => (acc, [])
  | c :: cs =>
    if c.isDigit then parseDigits (acc * 10 + (c.toNat - 48)) cs
    else (acc, c :: cs)

/-- Parse the JSON `int` production (`0`, or a nonzero digit followed by
digits).  A leading zero ends the number immediately, as in the JSON
grammar. -/
def parseNumNat : List Char → Option (Nat × List Char)
  | [] => none
  | c :: cs =>
    if c = '0' then some (0, cs)
    else if c.isDigit then some (parseDigits (c.toNat - 48) cs)
    else none

/-- Parse an optionally signed JSON integer. -/
def parseNumber : List Char → Option (Int × List Char)
  | [] => none
  | c :: cs =>
    if c = '-' then (parseNumNat cs).map (fun p => (-(p.1 : Int), p.2))
    else (parseNumNat (c :: cs)).map (fun p => ((p.1 : Int), p.2))

/-- Value of one hexadecimal digit character. -/
def hexVal (c : Char) : Option Nat :=
  if '0' ≤ c ∧ c ≤ '9' then some (c.toNat - 48)
  else if 'a' ≤ c ∧ c ≤ 'f' then some (c.toNat - 87)
  else if 'A' ≤ c ∧ c ≤ 'F' then some (c.toNat - 55)
  else none

/-- Parse a JSON string body after the opening quote, up to and including the
closing quote; returns the unescaped content and the remaining input.  Raw
control characters are rejected, escapes are unescaped.  (`\uXXXX` escapes
are mapped through `Char.ofNat`; surrogate halves, a UTF-16 artefact with no
scalar-value counterpart, are outside the model.) -/
def parseStringBody : List Char → Option (List Char × List Char)
  | [] => none
  | c :: cs =>
    if c = '"' then some ([], cs)
    else if c = '\\' then
      match cs with
      | [] => none
      | e :: cs1 =>
        if e = '"' then (parseStringBody cs1).map (fun p => ('"' :: p.1, p.2))
        else if e = '\\' then (parseStringBody cs1).map (fun p => ('\\' :: p.1, p.2))
        else if e = '/' then (parseStringBody cs1).map (fun p => ('/' :: p.1, p.2))
        else if e = 'b' then (parseStringBody cs1).map (fun p => (Char.ofNat 8 :: p.1, p.2))
        else if e = 't' then (parseStringBody cs1).map (fun p => (Char.ofNat 9 :: p.1, p.2))
        else if e = 'n' then (parseStringBody cs1).map (fun p => (Char.ofNat 10 :: p.1, p.2))
        else if e = 'f' then (parseStringBody cs1).map (fun p => (Char.ofNat 12 :: p.1, p.2))
        else if e = 'r' then (parseStringBody cs1).map (fun p => (Char.ofNat 13 :: p.1, p.2))
        else if e = 'u' then
          match cs1 with
          | h1 :: h2 :: h3 :: h4 :: cs2 =>
            match hexVal h1, hexVal h2, hexVal h3, hexVal h4 with
            | some a, some b, some c2, some d =>
              (parseStringBody cs2).map
                (fun p => (Char.ofNat (((a * 16 + b) * 16 + c2) * 16 + d) :: p.1, p.2))
            | _, _, _, _ => none
          | _ => none
        else none
    else if c.toNat < 32 then none
    else (parseStringBody cs).map (fun p => (c :: p.1, p.2))

mutual

/-- Recursive-descent JSON value parser (`JSON.parse` on the integer
fragment).  `fuel` strictly decreases on every recursive call; any
`fuel ≥ parseFuel v` is enough to read back a serialized `v`. -/
def parseVal : Nat → List Char → Option (Json × List Char)
  | 0, _ => none
  | f + 1, cs =>
    match skipWs cs with
    | [] => none
    | c :: cs1 =>
      if c = 'n' then
        match cs1 with
        | 'u' :: 'l' :: 'l' :: r => some (.null, r)
        | _ => none
      else if c = 't' then
        match cs1 with
        | 'r' :: 'u' :: 'e' :: r => some (.bool true, r)
        | _ => none
      else if c = 'f' then
        match cs1 with
        | 'a' :: 'l' :: 's' :: 'e' :: r => some (.bool false, r)
        | _ => none
      else if c = '"' then
        (parseStringBody cs1).map (fun p => (.str (String.mk p.1), p.2))
      else if c = '[' then
        match skipWs cs1 with
        | [] => none
        | c2 :: r2 =>
          if c2 = ']' then some (.arr [], r2)
          else (parseElems f (c2 :: r2)).map (fun p => (.arr p.1, p.2))
      else if c = lbrace then
        match skipWs cs1 with
        | [] => none
        | c2 :: r2 =>
          if c2 = rbrace then some (.obj [], r2)
          else (parseMems f (c2 :: r2)).map (fun p => (.obj p.1, p.2))
      else if c = '-' ∨ c.isDigit then
        (parseNumber (c :: cs1)).map (fun p => (.num p.1, p.2))
      else none

/-- Parse a nonempty comma-separated element list, consuming the closing
`]`. -/
def parseElems : Nat → List Char → Option (List Json × List Char)
  | 0, _ => none
  | f + 1, cs =>
    match parseVal f cs with
    | none => none
    | some (v, rest) =>
      match skipWs rest with
      | [] => none
      | c :: rest1 =>
        if c = ',' then
          match parseElems f rest1 with
          | some (vs, r) => some (v :: vs, r)
          | none => none
        else if c = ']' then some ([v], rest1)
        else none

/-- Parse a nonempty comma-separated member list, consuming the closing
brace. -/
def parseMems : Nat → List Char → Option (List (String × Json) × List Char)
  | 0, _ => none
  | f + 1, cs =>
    match skipWs cs with
    | [] => none
    | c :: cs1 =>
      if c = '"' then
        match parseStringBody cs1 with
        | none => none
        | some (k, rest) =>
          match skipWs rest with
          | [] => none
          | c2 :: rest1 =>
            if c2 = ':' then
              match parseVal f rest1 with
              | none => none
              | some (v, rest2) =>
                match skipWs rest2 with
                | [] => none
                | c3 :: rest3 =>
                  if c3 = ',' then
                    match parseMems f rest3 with
                    | some (ms, r) => some ((String.mk k, v) :: ms, r)
                    | none => none
                  else if c3 = rbrace then some ([(String.mk k, v)], rest3)
                  else none
            else none
      else none

end

/-- `JSON.parse`: parse one value and require only whitespace after it. -/
def jsonParse (s : String) : Option Json :=
  match parseVal (s.length + 1) s.data with
  | some (v, rest) => if skipWs rest = [] then some v else none
  | none => none

/-- `U+FFFD`, the replacement character substituted for malformed UTF-8. -/
def replacementChar : Char := Char.ofNat 0xFFFD

/-- Is `b` a byte in the inclusive range `[lo, hi]`?  (Used for the
continuation-byte windows of the WHATWG UTF-8 decoder.) -/
def byteIn (b lo hi : Nat) : Bool := decide (lo ≤ b) && decide (b ≤ hi)

/-- WHATWG UTF-8 decode with replacement, the behaviour of Node's
`StringDecoder`/`Buffer.toString("utf8")` used on inbound frames: malformed
sequences never fail, each maximal malformed subpart becomes one `U+FFFD`,
and decoding resumes at the offending byte. -/
def utf8DecodeReplace : List Nat → List Char
  | [] => []
  | b :: bs =>
    if b < 0x80 then Char.ofNat b :: utf8DecodeReplace bs
    else if b < 0xC2 then replacementChar :: utf8DecodeReplace bs
    else if b ≤ 0xDF then
      match bs with
      | [] => [replacementChar]
      | b2 :: bs2 =>
        if byteIn b2 0x80 0xBF then
          Char.ofNat ((b - 0xC0) * 0x40 + (b2 - 0x80)) :: utf8DecodeReplace bs2
        else replacementChar :: utf8DecodeReplace (b2 :: bs2)
    else if b ≤ 0xEF then
      match bs with
      | [] => [replacementChar]
      | b2 :: bs2 =>
        if byteIn b2 (if b = 0xE0 then 0xA0 else 0x80) (if b = 0xED then 0x9F else 0xBF) then
          match bs2 with
          | [] => [replacementChar]
          | b3 :: bs3 =>
            if byteIn b3 0x80 0xBF then
              Char.ofNat ((b - 0xE0) * 0x1000 + (b2 - 0x80) * 0x40 + (b3 - 0x80)) :: utf8DecodeReplace bs3
            else replacementChar :: utf8DecodeReplace (b3 :: bs3)
        else replacementChar :: utf8DecodeReplace (b2 :: bs2)
    else if b ≤ 0xF4 then
      match bs with
      | [] => [replacementChar]
      | b2 :: bs2 =>
        if byteIn b2 (if b = 0xF0 then 0x90 else 0x80) (if b = 0xF4 then 0x8F else 0xBF) then
          match bs2 with
          | [] => [replacementChar]
          | b3 :: bs3 =>
            if byteIn b3 0x80 0xBF then
              match bs3 with
              | [] => [replacementChar]
              | b4 :: bs4 =>
                if byteIn b4 0x80 0xBF then
                  Char.ofNat ((b - 0xF0) * 0x40000 + (b2 - 0x80) * 0x1000 + (b3 - 0x80) * 0x40 + (b4 - 0x80)) :: utf8DecodeReplace bs4
                else replacementChar :: utf8DecodeReplace (b4 :: bs4)
            else replacementChar :: utf8DecodeReplace (b3 :: bs3)
        else replacementChar :: utf8DecodeReplace (b2 :: bs2)
    else replacementChar :: utf8DecodeReplace bs

/-- Strict UTF-8 validity of a byte sequence (same sequence windows as the
decoder, but malformed input is rejected instead of replaced). -/
def utf8ValidB : List Nat → Bool
  | [] => true
  | b :: bs =>
    if b < 0x80 then utf8ValidB bs
    else if b < 0xC2 then false
    else if b ≤ 0xDF then
      match bs with
      | [] => false
      | b2 :: bs2 => byteIn b2 0x80 0xBF && utf8ValidB bs2
    else if b ≤ 0xEF then
      match bs with
      | [] => false
      | b2 :: bs2 =>
        byteIn b2 (if b = 0xE0 then 0xA0 else 0x80) (if b = 0xED then 0x9F else 0xBF) &&
          match bs2 with
          | [] => false
          | b3 :: bs3 => byteIn b3 0x80 0xBF && utf8ValidB bs3
    else if b ≤ 0xF4 then
      match bs with
      | [] => false
      | b2 :: bs2 =>
        byteIn b2 (if b = 0xF0 then 0x90 else 0x80) (if b = 0xF4 then 0x8F else 0xBF) &&
          match bs2 with
          | [] => false
          | b3 :: bs3 =>
            byteIn b3 0x80 0xBF &&
              match bs3 with
              | [] => false
              | b4 :: bs4 => byteIn b4 0x80 0xBF && utf8ValidB bs4
    else false

/-- UTF-8 encoding of one Unicode scalar value (the bytes the transport puts
on the wire for a text frame). -/
def utf8EncodeChar (c : Char) : List Nat :=
  let n := c.toNat
  if n < 0x80 then [n]
  else if n < 0x800 then [0xC0 + n / 0x40, 0x80 + n % 0x40]
  else if n < 0x10000 then
    [0xE0 + n / 0x1000, 0x80 + (n / 0x40) % 0x40, 0x80 + n % 0x40]
  else
    [0xF0 + n / 0x40000, 0x80 + (n / 0x1000) % 0x40, 0x80 + (n / 0x40) % 0x40, 0x80 + n % 0x40]

/-- UTF-8 encoding of a character sequence. -/
def utf8Encode : List Char → List Nat
  | [] => []
  | c :: cs => utf8EncodeChar c ++ utf8Encode cs

/-- The inbound decode step of `onMessage`:
`decoder.end(new Uint8Array(message))` — replacement-mode UTF-8 decoding of
the raw frame bytes (it never fails). -/
def decodeFrame (bytes : List Nat) : String := String.mk (utf8DecodeReplace bytes)

/-! ## Gateway state machine

The tracker collaborator (`./tracker`) is outside the gateway; its
`processMessage` is modelled as a behaviour function telling, for each
message/peer pair, whether the call returns normally, throws a
`TrackerError`, or throws some other error.  `PeerContext` instances are
identified by the allocation token handed out when `createPeer` runs, so
reference equality of contexts is token equality.  Calls into the tracker
are accumulated in a log. -/

/-- Outcome of one `tracker.processMessage` call. -/
inductive ProcOutcome where
  | ok
  | trackerError
  | otherError
deriving Repr, DecidableEq

/-- A behaviour of the tracker collaborator: outcome of `processMessage`
for a given message and peer token. -/
def TrackerBeh : Type := Json → Nat → ProcOutcome

/-- A tracker that always accepts (used for concrete runs). -/
def trackerOk : TrackerBeh := fun _ _ => ProcOutcome.ok

/-- One observable call from the gateway into the tracker collaborator. -/
inductive TCall where
  | processMessage (j : Json) (p : Nat)
  | disconnectPeer (p : Nat)
deriving Repr

/-- A transport event delivered to the gateway's handlers.  Connections are
identified by a number standing for the identity of the `ws` object. -/
inductive Event where
  | openEv (c : Nat)
  | messageEv (c : Nat) (bytes : List Nat)
  | drainEv (c : Nat)
  | closeEv (c : Nat)
deriving Repr, DecidableEq

/-- Gateway state: the `webSocketsCount` field, the `ws.peer` attachment of
every connection (`none` = property absent), the allocator giving each
created `PeerContext` a fresh identity token, and observation logs: calls
into the tracker, `PeerContext` creations (connection, token), and the
`ws.close()` calls the gateway itself issues. -/
structure GState where
  webSocketsCount : Int
  peers : Nat → Option Nat
  nextPeer : Nat
  calls : List TCall
  created : List (Nat × Nat)
  closeCalls : List Nat
  uncaught : List Nat

/-- The state before any event: counter zero, no peer attached anywhere. -/
def initG : GState :=
  { webSocketsCount := 0
    peers := fun _ => none
    nextPeer := 0
    calls := []
    created := []
    closeCalls := []
    uncaught := [] }

/-- The `open` handler: `this.webSocketsCount++` (plus a debug trace). -/
def onOpen (st : GState) (_c : Nat) : GState :=
  { st with webSocketsCount := st.webSocketsCount + 1 }

/-- The `drain` handler: only a debug trace, no state change. -/
def onDrain (st : GState) (_c : Nat) : GState := st

/-- The peer token `onMessage` uses for connection `c`: the attached one if
`ws.peer` is set, otherwise the token `createPeer` would allocate next. -/
def resolveTok (st : GState) (c : Nat) : Nat :=
  match st.peers c with
  | some p => p
  | none => st.nextPeer

/-- The `message` handler.  Mirrors `onMessage` of `UWebSocketsTracker`:
decode with the replacement-mode UTF-8 decoder, `JSON.parse` (on failure:
`ws.close()` and return); resolve or lazily create `ws.peer`; call
`tracker.processMessage`; on `TrackerError`: `ws.close()` and return; any
other thrown error is rethrown out of the handler (recorded in
`uncaught`). -/
def onMessage (t : TrackerBeh) (st : GState) (c : Nat) (bytes : List Nat) : GState :=
  match jsonParse (decodeFrame bytes) with
  | none => { st with closeCalls := st.closeCalls ++ [c] }
  | some json =>
    let p := resolveTok st c
    let st1 :=
      match st.peers c with
      | some _ => st
      | none =>
        { st with
            peers := fun c' => if c' = c then some st.nextPeer else st.peers c'
            nextPeer := st.nextPeer + 1
            created := st.created ++ [(c, st.nextPeer)] }
    let st2 := { st1 with calls := st1.calls ++ [TCall.processMessage json p] }
    match t json p with
    | .ok => st2
    | .trackerError => { st2 with closeCalls := st2.closeCalls ++ [c] }
    | .otherError => { st2 with uncaught := st2.uncaught ++ [c] }

/-- The `close` handler.  Mirrors `onClose`: `this.webSocketsCount--`
unconditionally; then, if `ws.peer` is set, `delete ws.peer` and
`tracker.disconnectPeer(peer)`. -/
def onClose (st : GState) (c : Nat) : GState :=
  let st1 := { st with webSocketsCount := st.webSocketsCount - 1 }
  match st.peers c with
  | some p =>
    { st1 with
        peers := fun c' => if c' = c then none else st.peers c'
        calls := st1.calls ++ [TCall.disconnectPeer p] }
  | none => st1

/-- Dispatch one transport event to the matching handler. -/
def stepEv (t : TrackerBeh) (st : GState) (e : Event) : GState :=
  match e with
  | .openEv c => onOpen st c
  | .messageEv c bytes => onMessage t st c bytes
  | .drainEv c => onDrain st c
  | .closeEv c => onClose st c

/-- Run the gateway from `initG` over a sequence of delivered events. -/
def runG (t : TrackerBeh) (es : List Event) : GState := es.foldl (stepEv t) initG

/-- Tokens of the `PeerContext`s created for connection `c`, in creation
order. -/
def createdFor (c : Nat) (st : GState) : List Nat :=
  (st.created.filter (fun cp => cp.1 == c)).map (fun cp => cp.2)

/-- Number of `disconnectPeer p` calls in a tracker-call log. -/
def countDisc (p : Nat) (l : List TCall) : Nat :=
  l.countP (fun tc =>
    match tc with
    | .disconnectPeer q => q == p
    | _ => false)

/-- Result of invoking a `PeerContext.sendMessage` capability, as built by
`createPeer`: `ws.send(JSON.stringify(json), false, false)` (the transport
send is modelled as fail-silent on a closed socket, the contract §4.5
ascribes to the collaborator), then, when the verbose message-diagnostics
flag is set, the log line dereferences `ws.peer.id`; if `ws.peer` has been
deleted this is a property access on `undefined` and throws a `TypeError`.
`wsPeer` is the current `ws.peer` attachment of the owning connection. -/
structure SendResult where
  sent : List Char
  raised : Bool
deriving Repr, DecidableEq

/-- See `SendResult`. -/
def sendMessageModel (debugMessagesEnabled : Bool) (wsPeer : Option Nat) (json : Json) : SendResult :=
  { sent := serializeChars json
    raised := debugMessagesEnabled && wsPeer.isNone }

/-! ## Environment bookkeeping over event traces

The transport runtime guarantees event shapes the handlers themselves never
check: a `ws` object is opened once, `message`/`drain` arrive only while it
is open, and `close` fires once for an open connection.  `wfFrom` is that
guarantee as a predicate on traces (`openS` = currently open, `everS` = ever
opened); traces outside it (e.g. a repeated close signal) are exactly the
"defensive contract" situations several claims quantify over. -/

/-- Currently-open and ever-opened connection sets after a trace. -/
def envStep : Finset Nat × Finset Nat → Event → Finset Nat × Finset Nat
  | (o, ev), .openEv c => (insert c o, insert c ev)
  | (o, ev), .closeEv c => (o.erase c, ev)
  | (o, ev), .messageEv _ _ => (o, ev)
  | (o, ev), .drainEv _ => (o, ev)

/-- Run the environment bookkeeping over a trace. -/
def envRun (es : List Event) : Finset Nat × Finset Nat := es.foldl envStep (∅, ∅)

/-- Transport-well-formedness of a trace, starting from open-set `openS`
and ever-opened-set `everS`: opens are globally fresh, messages and drains
are delivered on open connections only, closes only on open connections
(hence at most once per connection). -/
def wfFrom (openS everS : Finset Nat) : List Event → Bool
  | [] => true
  | .openEv c :: es => decide (c ∉ everS) && wfFrom (insert c openS) (insert c everS) es
  | .messageEv c _ :: es => decide (c ∈ openS) && wfFrom openS everS es
  | .drainEv c :: es => decide (c ∈ openS) && wfFrom openS everS es
  | .closeEv c :: es => decide (c ∈ openS) && wfFrom (openS.erase c) everS es

/-- Well-formed trace from the initial (empty) environment. -/
def wfTrace (es : List Event) : Bool := wfFrom ∅ ∅ es

/-- Is `e` a message frame for connection `c` that decodes successfully
(UTF-8 replacement decode followed by `JSON.parse`)? -/
def msgDecodedFor (c : Nat) : Event → Bool
  | .messageEv c' bytes => c' == c && (jsonParse (decodeFrame bytes)).isSome
  | _ => false

/-- Does the trace contain a message frame for connection `c` that decodes
successfully? -/
def decodedForB (c : Nat) (es : List Event) : Bool :=
  es.any (msgDecodedFor c)

/-- Allocator and disconnect-log bookkeeping that holds after an arbitrary
event trace (well-formed or not): attached tokens are below the allocator,
no token is attached to two connections, unallocated or still-attached
tokens have no disconnect call yet, and no token is ever disconnected
twice. -/
def InvTok (st : GState) : Prop :=
  (∀ c p, st.peers c = some p → p < st.nextPeer) ∧
  (∀ c c' p, st.peers c = some p → st.peers c' = some p → c = c') ∧
  (∀ p, st.nextPeer ≤ p → countDisc p st.calls = 0) ∧
  (∀ c p, st.peers c = some p → countDisc p st.calls = 0) ∧
  (∀ p, countDisc p st.calls ≤ 1)

/-- Gateway/transport simulation invariant along well-formed traces:
`openS`/`everS` are the currently-open and ever-opened connection sets.
The counter equals the number of open connections; closed or never-opened
connections hold no peer; an attached peer is the unique context ever
created for its connection; at most one context is ever created per
connection; an open connection holds a peer exactly when one was ever
created for it; never-opened connections have no created context. -/
def InvWf (st : GState) (openS everS : Finset Nat) : Prop :=
  st.webSocketsCount = (openS.card : Int) ∧
  openS ⊆ everS ∧
  (∀ c, c ∉ openS → st.peers c = none) ∧
  (∀ c p, st.peers c = some p → createdFor c st = [p]) ∧
  (∀ c, (createdFor c st).length ≤ 1) ∧
  (∀ c, c ∈ openS → ((st.peers c).isSome = true ↔ createdFor c st ≠ [])) ∧
  (∀ c, c ∉ everS → createdFor c st = [])

mutual

/-- Fuel sufficient for `parseVal` to read back a serialized value (one unit
per parser recursion). -/
def fuelVal : Json → Nat
  | .null => 1
  | .bool _ => 1
  | .num _ => 1
  | .str _ => 1
  | .arr xs => 1 + fuelElems xs
  | .obj kvs => 1 + fuelMems kvs

/-- Fuel sufficient for `parseElems` on a serialized element list. -/
def fuelElems : List Json → Nat
  | [] => 0
  | x :: xs => 1 + max (fuelVal x) (fuelElems xs)

/-- Fuel sufficient for `parseMems` on a serialized member list. -/
def fuelMems : List (String × Json) → Nat
  | [] => 0
  | (_, v) :: ms => 1 + max (fuelVal v) (fuelMems ms)

end

mutual

/-- Does every object in the value have pairwise-distinct keys?  (JavaScript
objects — the values `sendMessage` can accept — always satisfy this.) -/
def wfKeys : Json → Bool
  | .null => true
  | .bool _ => true
  | .num _ => true
  | .str _ => true
  | .arr xs => wfKeysElems xs
  | .obj kvs => decide ((kvs.map Prod.fst).Nodup) && wfKeysMems kvs

/-- `wfKeys` on every element of a list. -/
def wfKeysElems : List Json → Bool
  | [] => true
  | x :: xs => wfKeys x && wfKeysElems xs

/-- `wfKeys` on every member value of a list. -/
def wfKeysMems : List (String × Json) → Bool
  | [] => true
  | (_, v) :: ms => wfKeys v && wfKeysMems ms

end

/-- The per-event guarantee the transport runtime gives the handlers:
opens are fresh, other events are delivered on open connections. -/
def evOk (openS everS : Finset Nat) : Event → Prop
  | .openEv c => c ∉ everS
  | .messageEv c _ => c ∈ openS
  | .drainEv c => c ∈ openS
  | .closeEv c => c ∈ openS

/-! ## Theorems -/

/-- Unfolding of `onMessage` on a frame that decodes and parses
successfully, as a function of the previous `ws.peer` attachment and the
tracker outcome. -/
theorem onMessage_parsed (t : TrackerBeh) (st : GState) (c : Nat) (bytes : List Nat)
    (json : Json) (h : jsonParse (decodeFrame bytes) = some json) :
    onMessage t st c bytes =
      (let p := resolveTok st c
       let st1 :=
         match st.peers c with
         | some _ => st
         | none =>
           { st with
               peers := fun c' => if c' = c then some st.nextPeer else st.peers c'
               nextPeer := st.nextPeer + 1
               created := st.created ++ [(c, st.nextPeer)] }
       let st2 := { st1 with calls := st1.calls ++ [TCall.processMessage json p] }
       match t json p with
       | .ok => st2
       | .trackerError => { st2 with closeCalls := st2.closeCalls ++ [c] }
       | .otherError => { st2 with uncaught := st2.uncaught ++ [c] }) := by
  unfold onMessage
  rw [h]

/-- `onMessage` on a parsed frame when a peer context is already attached:
only the call log (and, per tracker outcome, the close or uncaught log)
changes. -/
theorem onMessage_attached (t : TrackerBeh) (st : GState) (c : Nat) (bytes : List Nat)
    (json : Json) (p : Nat) (hj : jsonParse (decodeFrame bytes) = some json)
    (hp : st.peers c = some p) :
    onMessage t st c bytes =
      match t json p with
      | .ok => { st with calls := st.calls ++ [TCall.processMessage json p] }
      | .trackerError =>
        { st with
            calls := st.calls ++ [TCall.processMessage json p]
            closeCalls := st.closeCalls ++ [c] }
      | .otherError =>
        { st with
            calls := st.calls ++ [TCall.processMessage json p]
            uncaught := st.uncaught ++ [c] } := by
  unfold onMessage
  rw [hj]
  simp only [resolveTok, hp]

/-- `onMessage` on a parsed frame when no peer context is attached yet:
a fresh context is created and attached before `processMessage` is
invoked. -/
theorem onMessage_fresh (t : TrackerBeh) (st : GState) (c : Nat) (bytes : List Nat)
    (json : Json) (hj : jsonParse (decodeFrame bytes) = some json)
    (hp : st.peers c = none) :
    onMessage t st c bytes =
      match t json st.nextPeer with
      | .ok =>
        { st with
            peers := fun c' => if c' = c then some st.nextPeer else st.peers c'
            nextPeer := st.nextPeer + 1
            created := st.created ++ [(c, st.nextPeer)]
            calls := st.calls ++ [TCall.processMessage json st.nextPeer] }
      | .trackerError =>
        { st with
            peers := fun c' => if c' = c then some st.nextPeer else st.peers c'
            nextPeer := st.nextPeer + 1
            created := st.created ++ [(c, st.nextPeer)]
            calls := st.calls ++ [TCall.processMessage json st.nextPeer]
            closeCalls := st.closeCalls ++ [c] }
      | .otherError =>
        { st with
            peers := fun c' => if c' = c then some st.nextPeer else st.peers c'
            nextPeer := st.nextPeer + 1
            created := st.created ++ [(c, st.nextPeer)]
            calls := st.calls ++ [TCall.processMessage json st.nextPeer]
            uncaught := st.uncaught ++ [c] } := by
  unfold onMessage
  rw [hj]
  simp only [resolveTok, hp]

/-- C6 (confirmed): a frame whose decoded text fails `JSON.parse` makes the
message handler call `ws.close()` and return; `processMessage` is not
invoked, no peer is created, nothing else changes — no partial message, no
retry. -/
theorem parse_failure_closes_without_dispatch (t : TrackerBeh) (st : GState) (c : Nat)
    (bytes : List Nat) (h : jsonParse (decodeFrame bytes) = none) :
    onMessage t st c bytes = { st with closeCalls := st.closeCalls ++ [c] } := by
  unfold onMessage
  rw [h]

/-- Witness for C6 at the one-byte frame `7B` (a lone left brace, malformed
JSON). -/
theorem parse_failure_closes_without_dispatch_witness :
    jsonParse (decodeFrame [123]) = none ∧
      onMessage trackerOk initG 0 [123] = { initG with closeCalls := [0] } :=
  ⟨rfl, parse_failure_closes_without_dispatch trackerOk initG 0 [123] rfl⟩

/-- C3 (confirmed): for a successfully decoded message, a `TrackerError`
from `processMessage` is contained — the dispatcher calls `ws.close()` and
no exception escapes the handler — while any other error propagates out of
the dispatch call (and is recorded uncaught). -/
theorem dispatch_error_containment (t : TrackerBeh) (st : GState) (c : Nat)
    (bytes : List Nat) (json : Json) (h : jsonParse (decodeFrame bytes) = some json) :
    (t json (resolveTok st c) = ProcOutcome.trackerError →
        (onMessage t st c bytes).closeCalls = st.closeCalls ++ [c] ∧
        (onMessage t st c bytes).uncaught = st.uncaught) ∧
    (t json (resolveTok st c) = ProcOutcome.otherError →
        (onMessage t st c bytes).uncaught = st.uncaught ++ [c] ∧
        (onMessage t st c bytes).closeCalls = st.closeCalls) := by
  rw [onMessage_parsed t st c bytes json h]
  cases hp : st.peers c <;> cases ho : t json (resolveTok st c) <;>
    simp [hp, ho]

/-- Witness for C3: a one-frame run (`"5"`) against a tracker that always
throws a `TrackerError`, and one against a tracker that always throws an
internal error. -/
theorem dispatch_error_containment_witness :
    (jsonParse (decodeFrame [0x35]) = some (Json.num 5) ∧
      (fun (_ : Json) (_ : Nat) => ProcOutcome.trackerError) (Json.num 5) (resolveTok initG 0)
        = ProcOutcome.trackerError ∧
      (onMessage (fun _ _ => ProcOutcome.trackerError) initG 0 [0x35]).closeCalls = [0] ∧
      (onMessage (fun _ _ => ProcOutcome.trackerError) initG 0 [0x35]).uncaught = []) ∧
    ((onMessage (fun _ _ => ProcOutcome.otherError) initG 0 [0x35]).uncaught = [0] ∧
      (onMessage (fun _ _ => ProcOutcome.otherError) initG 0 [0x35]).closeCalls = []) := by
  refine ⟨⟨rfl, rfl, ?_⟩, ?_⟩
  · have h := (dispatch_error_containment (fun _ _ => ProcOutcome.trackerError) initG 0 [0x35]
      (Json.num 5) rfl).1 rfl
    simpa using h
  · have h := (dispatch_error_containment (fun _ _ => ProcOutcome.otherError) initG 0 [0x35]
      (Json.num 5) rfl).2 rfl
    simpa using h

/-- C9 (confirmed): when `processMessage` throws a non-`TrackerError`, the
handler rethrows it without calling `ws.close()`: the close log is
unchanged, the peer context stays attached, and the live-connection counter
is untouched by the dispatch. -/
theorem other_error_rethrown_without_close (t : TrackerBeh) (st : GState) (c : Nat)
    (bytes : List Nat) (json : Json) (h : jsonParse (decodeFrame bytes) = some json)
    (ho : t json (resolveTok st c) = ProcOutcome.otherError) :
    (onMessage t st c bytes).closeCalls = st.closeCalls ∧
    (onMessage t st c bytes).uncaught = st.uncaught ++ [c] ∧
    (onMessage t st c bytes).peers c = some (resolveTok st c) ∧
    (onMessage t st c bytes).webSocketsCount = st.webSocketsCount := by
  rw [onMessage_parsed t st c bytes json h]
  cases hp : st.peers c <;> simp [resolveTok, hp] at ho ⊢ <;> simp [ho, hp]

/-- Witness for C9 at the frame `"5"` and an always-internal-error
tracker. -/
theorem other_error_rethrown_without_close_witness :
    (jsonParse (decodeFrame [0x35]) = some (Json.num 5) ∧
      (onMessage (fun _ _ => ProcOutcome.otherError) initG 0 [0x35]).closeCalls = [] ∧
      (onMessage (fun _ _ => ProcOutcome.otherError) initG 0 [0x35]).uncaught = [0] ∧
      (onMessage (fun _ _ => ProcOutcome.otherError) initG 0 [0x35]).peers 0 = some 0) := by
  have h := other_error_rethrown_without_close (fun _ _ => ProcOutcome.otherError) initG 0 [0x35]
    (Json.num 5) rfl rfl
  exact ⟨rfl, by simpa using h.1, by simpa using h.2.1, by simpa using h.2.2.1⟩

/-- C2 counterexample: the three-byte frame `22 FF 22` is not valid UTF-8,
yet the message handler does not close the connection — the decoder
substitutes `U+FFFD` and the result parses as the JSON string `"�"`,
which is dispatched to `processMessage`. -/
theorem invalid_utf8_frame_reaches_tracker :
    utf8ValidB [0x22, 0xFF, 0x22] = false ∧
    wfTrace [Event.openEv 0, Event.messageEv 0 [0x22, 0xFF, 0x22]] = true ∧
    (runG trackerOk [Event.openEv 0, Event.messageEv 0 [0x22, 0xFF, 0x22]]).calls
      = [TCall.processMessage (Json.str (String.mk [replacementChar])) 0] ∧
    (runG trackerOk [Event.openEv 0, Event.messageEv 0 [0x22, 0xFF, 0x22]]).closeCalls = [] :=
  ⟨rfl, by decide, rfl, rfl⟩

/-- C2 amended: malformed UTF-8 never crashes the handler — the decode step
is total, substituting `U+FFFD` for malformed subparts — and the handler
closes the connection without invoking `processMessage` exactly when the
replaced text fails to parse as JSON; a frame whose replaced text parses
(which includes some invalid-UTF-8 frames) is dispatched to
`processMessage`. -/
theorem invalid_utf8_replacement_policy (t : TrackerBeh) (st : GState) (c : Nat)
    (bytes : List Nat) :
    (jsonParse (decodeFrame bytes) = none →
        onMessage t st c bytes = { st with closeCalls := st.closeCalls ++ [c] }) ∧
    (∀ json, jsonParse (decodeFrame bytes) = some json →
        (onMessage t st c bytes).calls = st.calls ++ [TCall.processMessage json (resolveTok st c)] ∧
        (onMessage t st c bytes).closeCalls =
          (if t json (resolveTok st c) = ProcOutcome.trackerError
            then st.closeCalls ++ [c] else st.closeCalls)) := by
  constructor
  · intro h
    exact parse_failure_closes_without_dispatch t st c bytes h
  · intro json h
    rw [onMessage_parsed t st c bytes json h]
    cases hp : st.peers c <;> cases ho : t json (resolveTok st c) <;>
      simp [hp, ho]

/-- Witness for C2 amended: the close branch at the malformed frame `7B`
and the dispatch branch at the (invalid-UTF-8) frame `22 FF 22`. -/
theorem invalid_utf8_replacement_policy_witness :
    (jsonParse (decodeFrame [123]) = none ∧
      onMessage trackerOk initG 0 [123] = { initG with closeCalls := [0] }) ∧
    (jsonParse (decodeFrame [0x22, 0xFF, 0x22])
        = some (Json.str (String.mk [replacementChar])) ∧
      (onMessage trackerOk initG 0 [0x22, 0xFF, 0x22]).calls
        = [TCall.processMessage (Json.str (String.mk [replacementChar])) 0]) := by
  refine ⟨⟨rfl, (invalid_utf8_replacement_policy trackerOk initG 0 [123]).1 rfl⟩, rfl, ?_⟩
  have h := ((invalid_utf8_replacement_policy trackerOk initG 0 [0x22, 0xFF, 0x22]).2
    (Json.str (String.mk [replacementChar])) rfl).1
  simpa using h

/-- C7 counterexample: after `open`, one decoded message and `close` on
connection 0, the close handler has deleted `ws.peer`; invoking the peer's
`sendMessage` with verbose message diagnostics enabled then raises (the log
line dereferences `ws.peer.id` on `undefined`). -/
theorem send_after_close_raises :
    (runG trackerOk [Event.openEv 0, Event.messageEv 0 [0x35], Event.closeEv 0]).peers 0 = none ∧
    (sendMessageModel true
        ((runG trackerOk [Event.openEv 0, Event.messageEv 0 [0x35], Event.closeEv 0]).peers 0)
        Json.null).raised = true :=
  ⟨rfl, rfl⟩

/-- C7 amended: with verbose message diagnostics disabled, `sendMessage`
after the owning connection closed does not raise (the transport send is
fail-silent); while the peer is still attached it does not raise either
way; but with diagnostics enabled and the peer attachment deleted by the
close handler, `sendMessage` raises a `TypeError`. -/
theorem send_after_close_policy (json : Json) (wsPeer : Option Nat) :
    (sendMessageModel false wsPeer json).raised = false ∧
    (∀ p, (sendMessageModel true (some p) json).raised = false) ∧
    (sendMessageModel true none json).raised = true := by
  refine ⟨rfl, fun p => rfl, rfl⟩


/-- `runG` over an appended trace continues from the intermediate state. -/
theorem runG_append (t : TrackerBeh) (es1 es2 : List Event) :
    runG t (es1 ++ es2) = es2.foldl (stepEv t) (runG t es1) := by
  simp [runG, List.foldl_append]

/-- Any step only appends to the tracker-call log. -/
theorem stepEv_calls_mono (t : TrackerBeh) (st : GState) (e : Event) :
    ∃ l, (stepEv t st e).calls = st.calls ++ l := by
  cases e with
  | openEv c => exact ⟨[], by simp [stepEv, onOpen]⟩
  | drainEv c => exact ⟨[], by simp [stepEv, onDrain]⟩
  | closeEv c =>
    cases hp : st.peers c with
    | none => exact ⟨[], by simp [stepEv, onClose, hp]⟩
    | some p => exact ⟨[TCall.disconnectPeer p], by simp [stepEv, onClose, hp]⟩
  | messageEv c bytes =>
    cases h : jsonParse (decodeFrame bytes) with
    | none => exact ⟨[], by simp [stepEv, onMessage, h]⟩
    | some json =>
      refine ⟨[TCall.processMessage json (resolveTok st c)], ?_⟩
      rw [stepEv, onMessage_parsed t st c bytes json h]
      cases hp : st.peers c <;> cases ho : t json (resolveTok st c) <;> simp [hp, ho]

/-- A fold of steps only appends to the tracker-call log. -/
theorem foldl_calls_mono (t : TrackerBeh) (es : List Event) :
    ∀ st : GState, ∃ l, (es.foldl (stepEv t) st).calls = st.calls ++ l := by
  induction es with
  | nil => exact fun st => ⟨[], by simp⟩
  | cons e es ih =>
    intro st
    obtain ⟨l1, h1⟩ := stepEv_calls_mono t st e
    obtain ⟨l2, h2⟩ := ih (stepEv t st e)
    exact ⟨l1 ++ l2, by simp [h2, h1]⟩

/-- `countDisc` distributes over list append. -/
theorem countDisc_append (p : Nat) (l1 l2 : List TCall) :
    countDisc p (l1 ++ l2) = countDisc p l1 + countDisc p l2 := by
  simp [countDisc, List.countP_append]

/-- A `processMessage` entry contributes nothing to `countDisc`. -/
theorem countDisc_processMessage (p : Nat) (j : Json) (q : Nat) :
    countDisc p [TCall.processMessage j q] = 0 := by
  simp [countDisc]

/-- A `disconnectPeer q` entry contributes to `countDisc p` iff `q = p`. -/
theorem countDisc_disconnect (p q : Nat) :
    countDisc p [TCall.disconnectPeer q] = if q = p then 1 else 0 := by
  by_cases h : q = p <;> simp [countDisc, h]

/-- Every handler preserves the allocator/disconnect invariant. -/
theorem invTok_step (t : TrackerBeh) (st : GState) (e : Event) (h : InvTok st) :
    InvTok (stepEv t st e) := by
  obtain ⟨h1, h2, h3, h4, h5⟩ := h
  cases e with
  | openEv c => exact ⟨h1, h2, h3, h4, h5⟩
  | drainEv c => exact ⟨h1, h2, h3, h4, h5⟩
  | closeEv c =>
    cases hp : st.peers c with
    | none => simp only [stepEv, onClose, hp]; exact ⟨h1, h2, h3, h4, h5⟩
    | some p =>
      simp only [stepEv, onClose, hp]
      refine ⟨?_, ?_, ?_, ?_, ?_⟩
      · intro c' q hq
        simp only at hq
        split at hq
        · exact absurd hq (by simp)
        · exact h1 c' q hq
      · intro a b q ha hb
        simp only at ha hb
        split at ha
        · exact absurd ha (by simp)
        · split at hb
          · exact absurd hb (by simp)
          · exact h2 a b q ha hb
      · intro q hq
        have hq' : st.nextPeer ≤ q := hq
        rw [countDisc_append, h3 q hq', countDisc_disconnect]
        have hne : p ≠ q := by
          intro hpq
          subst hpq
          exact absurd (h1 c p hp) (by omega)
        simp [hne]
      · intro c' q hq
        simp only at hq
        split at hq
        · exact absurd hq (by simp)
        · rename_i hne
          rw [countDisc_append, h4 c' q hq, countDisc_disconnect]
          have : p ≠ q := fun hpq => hne (h2 c' c q hq (hpq ▸ hp))
          simp [this]
      · intro q
        rw [countDisc_append, countDisc_disconnect]
        by_cases hpq : p = q
        · subst hpq
          rw [h4 c p hp]
          simp
        · simp [hpq]
          exact h5 q
  | messageEv c bytes =>
    cases hj : jsonParse (decodeFrame bytes) with
    | none => simp only [stepEv, onMessage, hj]; exact ⟨h1, h2, h3, h4, h5⟩
    | some json =>
      cases hp : st.peers c with
      | some p0 =>
        rw [stepEv, onMessage_attached t st c bytes json p0 hj hp]
        have hcalls : ∀ (q : Nat),
            countDisc q (st.calls ++ [TCall.processMessage json p0])
              = countDisc q st.calls := by
          intro q
          rw [countDisc_append, countDisc_processMessage]
          omega
        cases ho : t json p0 <;>
          exact ⟨fun a q hq => h1 a q hq, fun a b q ha hb => h2 a b q ha hb,
            fun q hq => by rw [hcalls]; exact h3 q hq,
            fun a q hq => by rw [hcalls]; exact h4 a q hq,
            fun q => by rw [hcalls]; exact h5 q⟩
      | none =>
        rw [stepEv, onMessage_fresh t st c bytes json hj hp]
        have hcalls : ∀ (q : Nat),
            countDisc q (st.calls ++ [TCall.processMessage json st.nextPeer])
              = countDisc q st.calls := by
          intro q
          rw [countDisc_append, countDisc_processMessage]
          omega
        have hpeers : ∀ a q, (fun c' => if c' = c then some st.nextPeer else st.peers c') a = some q →
            q < st.nextPeer + 1 ∧ (a = c → q = st.nextPeer) ∧ (a ≠ c → st.peers a = some q) := by
          intro a q hq
          simp only at hq
          split at hq
          · rename_i hac
            exact ⟨by simp_all, fun _ => by simp_all, fun hne => absurd hac hne⟩
          · rename_i hac
            exact ⟨Nat.lt_succ_of_lt (h1 a q hq), fun hc => absurd hc hac, fun _ => hq⟩
        have hA : ∀ a q, (fun c' => if c' = c then some st.nextPeer else st.peers c') a = some q →
            q < st.nextPeer + 1 := fun a q hq => (hpeers a q hq).1
        have hB : ∀ a b q,
            (fun c' => if c' = c then some st.nextPeer else st.peers c') a = some q →
            (fun c' => if c' = c then some st.nextPeer else st.peers c') b = some q → a = b := by
          intro a b q ha hb
          obtain ⟨-, ha2, ha3⟩ := hpeers a q ha
          obtain ⟨-, hb2, hb3⟩ := hpeers b q hb
          by_cases hac : a = c <;> by_cases hbc : b = c
          · rw [hac, hbc]
          · exact absurd (h1 b q (hb3 hbc)) (by rw [ha2 hac]; omega)
          · exact absurd (h1 a q (ha3 hac)) (by rw [hb2 hbc]; omega)
          · exact h2 a b q (ha3 hac) (hb3 hbc)
        have hC : ∀ q, st.nextPeer + 1 ≤ q →
            countDisc q (st.calls ++ [TCall.processMessage json st.nextPeer]) = 0 := by
          intro q hq
          rw [hcalls]
          exact h3 q (by omega)
        have hD : ∀ a q, (fun c' => if c' = c then some st.nextPeer else st.peers c') a = some q →
            countDisc q (st.calls ++ [TCall.processMessage json st.nextPeer]) = 0 := by
          intro a q hq
          rw [hcalls]
          obtain ⟨-, ha2, ha3⟩ := hpeers a q hq
          by_cases hac : a = c
          · rw [ha2 hac]
            exact h3 st.nextPeer (le_refl _)
          · exact h4 a q (ha3 hac)
        have hE : ∀ q,
            countDisc q (st.calls ++ [TCall.processMessage json st.nextPeer]) ≤ 1 := by
          intro q
          rw [hcalls]
          exact h5 q
        cases ho : t json st.nextPeer <;> exact ⟨hA, hB, hC, hD, hE⟩

/-- State predicates preserved by every step hold after any fold of
steps. -/
theorem foldl_step_inv (t : TrackerBeh) (P : GState → Prop)
    (hstep : ∀ st e, P st → P (stepEv t st e)) :
    ∀ (es : List Event) (st : GState), P st → P (es.foldl (stepEv t) st) := by
  intro es
  induction es with
  | nil => exact fun st h => h
  | cons e es ih => exact fun st h => ih (stepEv t st e) (hstep st e h)

/-- The allocator/disconnect invariant holds after any trace. -/
theorem invTok_runG (t : TrackerBeh) (es : List Event) : InvTok (runG t es) := by
  have h0 : InvTok initG := by
    refine ⟨?_, ?_, ?_, ?_, ?_⟩ <;> simp [initG, countDisc]
  exact foldl_step_inv t InvTok (invTok_step t) es initG h0

/-- C4 (confirmed): closing a connection that has an attached
`PeerContext` invokes `tracker.disconnectPeer` exactly once with that same
context — the close handler deletes `ws.peer` before notifying, so however
the trace continues (including a second close signal for the same
connection), no further `disconnectPeer` for that context ever occurs. -/
theorem disconnectPeer_exactly_once (t : TrackerBeh) (es : List Event) (c p : Nat)
    (h : (runG t es).peers c = some p) :
    (runG t (es ++ [Event.closeEv c])).calls
        = (runG t es).calls ++ [TCall.disconnectPeer p] ∧
    ∀ es2, countDisc p (runG t (es ++ Event.closeEv c :: es2)).calls = 1 := by
  constructor
  · rw [runG_append]
    simp [stepEv, onClose, h]
  · intro es2
    have hsplit : es ++ Event.closeEv c :: es2 = (es ++ [Event.closeEv c]) ++ es2 := by
      simp
    have h1 : runG t (es ++ Event.closeEv c :: es2)
        = es2.foldl (stepEv t) (runG t (es ++ [Event.closeEv c])) := by
      rw [hsplit, runG_append]
    obtain ⟨l, hl⟩ := foldl_calls_mono t es2 (runG t (es ++ [Event.closeEv c]))
    obtain ⟨-, -, -, h4, -⟩ := invTok_runG t es
    have hbase : countDisc p (runG t (es ++ [Event.closeEv c])).calls = 1 := by
      rw [runG_append]
      simp [stepEv, onClose, h, countDisc_append, countDisc_disconnect, h4 c p h]
    have hcount : countDisc p (runG t (es ++ Event.closeEv c :: es2)).calls
        = 1 + countDisc p l := by
      rw [h1, hl, countDisc_append, hbase]
    obtain ⟨-, -, -, -, h5⟩ := invTok_runG t (es ++ Event.closeEv c :: es2)
    have h5p := h5 p
    omega

/-- Witness for C4: connection 0 opens, sends one decoded frame (so a
context with token 0 is attached), then closes — one `disconnectPeer 0`;
after a second close signal the count is still one. -/
theorem disconnectPeer_exactly_once_witness :
    (runG trackerOk [Event.openEv 0, Event.messageEv 0 [0x35]]).peers 0 = some 0 ∧
    (runG trackerOk [Event.openEv 0, Event.messageEv 0 [0x35], Event.closeEv 0]).calls
      = (runG trackerOk [Event.openEv 0, Event.messageEv 0 [0x35]]).calls
          ++ [TCall.disconnectPeer 0] ∧
    countDisc 0 (runG trackerOk
      [Event.openEv 0, Event.messageEv 0 [0x35], Event.closeEv 0, Event.closeEv 0]).calls = 1 := by
  have h := disconnectPeer_exactly_once trackerOk
    [Event.openEv 0, Event.messageEv 0 [0x35]] 0 0 rfl
  exact ⟨rfl, h.1, h.2 [Event.closeEv 0]⟩

/-- C1 counterexample: deliver `open 0`, `close 0`, and a repeated
`close 0`.  The close handler decrements `webSocketsCount`
unconditionally, so the counter reaches `-1`: it no longer equals the
number of opened-but-not-yet-closed connections (zero) and it is
negative. -/
theorem repeated_close_double_decrements :
    (runG trackerOk [Event.openEv 0, Event.closeEv 0, Event.closeEv 0]).webSocketsCount = -1 ∧
    (runG trackerOk [Event.openEv 0, Event.closeEv 0, Event.closeEv 0]).webSocketsCount < 0 :=
  ⟨rfl, by decide⟩

/-- `createdFor` only depends on the `created` log. -/
theorem createdFor_congr (c : Nat) (st st' : GState) (h : st'.created = st.created) :
    createdFor c st' = createdFor c st := by
  simp [createdFor, h]

/-- Pushing a creation entry for `c` appends its token to `createdFor c`. -/
theorem createdFor_push_self (c tok : Nat) (st st' : GState)
    (h : st'.created = st.created ++ [(c, tok)]) :
    createdFor c st' = createdFor c st ++ [tok] := by
  simp [createdFor, h, List.filter_append]

/-- Pushing a creation entry for `c` leaves `createdFor c'` unchanged for
`c' ≠ c`. -/
theorem createdFor_push_other (c c' tok : Nat) (hne : c' ≠ c) (st st' : GState)
    (h : st'.created = st.created ++ [(c, tok)]) :
    createdFor c' st' = createdFor c' st := by
  have : (c == c') = false := by
    simp [Ne.symm hne]
  simp [createdFor, h, List.filter_append, this]

/-- Every handler step preserves the well-formed-trace invariant, under the
transport guarantee for the delivered event. -/
theorem invWf_step (t : TrackerBeh) (st : GState) (e : Event) (oS eS : Finset Nat)
    (hok : evOk oS eS e) (h : InvWf st oS eS) :
    InvWf (stepEv t st e) ((envStep (oS, eS) e).1) ((envStep (oS, eS) e).2) := by
  obtain ⟨h1, h2, h3, h4, h5, h6, h7⟩ := h
  cases e with
  | drainEv c => exact ⟨h1, h2, h3, h4, h5, h6, h7⟩
  | openEv c =>
    have hce : c ∉ eS := hok
    have hco : c ∉ oS := fun hc => hce (h2 hc)
    simp only [stepEv, onOpen, envStep]
    refine ⟨?_, ?_, ?_, h4, h5, ?_, ?_⟩
    · show st.webSocketsCount + 1 = ((insert c oS).card : Int)
      rw [Finset.card_insert_of_not_mem hco, h1]
      push_cast
      ring
    · exact Finset.insert_subset_insert c h2
    · intro c' hc'
      exact h3 c' (fun hmem => hc' (Finset.mem_insert_of_mem hmem))
    · intro c' hc'
      rcases Finset.mem_insert.mp hc' with hceq | hcin
      · subst hceq
        show (st.peers c').isSome = true ↔ createdFor c' st ≠ []
        rw [h3 c' hco, h7 c' hce]
        simp
      · exact h6 c' hcin
    · intro c' hc'
      exact h7 c' (fun hmem => hc' (Finset.mem_insert_of_mem hmem))
  | closeEv c =>
    have hco : c ∈ oS := hok
    have hcard : 1 ≤ oS.card := Finset.card_pos.mpr ⟨c, hco⟩
    have hcount : st.webSocketsCount - 1 = ((oS.erase c).card : Int) := by
      rw [Finset.card_erase_of_mem hco, h1]
      push_cast [hcard]
      ring
    have hsub : oS.erase c ⊆ eS := fun a ha => h2 (Finset.mem_of_mem_erase ha)
    cases hp : st.peers c with
    | none =>
      simp only [stepEv, onClose, hp, envStep]
      refine ⟨hcount, hsub, ?_, h4, h5, ?_, h7⟩
      · intro c' hc'
        by_cases hcc : c' = c
        · exact hcc ▸ hp
        · exact h3 c' (fun hmem => hc' (Finset.mem_erase.mpr ⟨hcc, hmem⟩))
      · intro c' hc'
        exact h6 c' (Finset.mem_of_mem_erase hc')
    | some p =>
      simp only [stepEv, onClose, hp, envStep]
      refine ⟨hcount, hsub, ?_, ?_, h5, ?_, h7⟩
      · intro c' hc'
        by_cases hcc : c' = c
        · simp [hcc]
        · simp only [hcc, if_false]
          exact h3 c' (fun hmem => hc' (Finset.mem_erase.mpr ⟨hcc, hmem⟩))
      · intro c' q hq
        simp only at hq
        split at hq
        · exact absurd hq (by simp)
        · exact h4 c' q hq
      · intro c' hc'
        have hcc : c' ≠ c := (Finset.mem_erase.mp hc').1
        simp only [hcc, if_false]
        exact h6 c' (Finset.mem_of_mem_erase hc')
  | messageEv c bytes =>
    have hco : c ∈ oS := hok
    cases hj : jsonParse (decodeFrame bytes) with
    | none =>
      simp only [stepEv, onMessage, hj, envStep]
      exact ⟨h1, h2, h3, h4, h5, h6, h7⟩
    | some json =>
      cases hp : st.peers c with
      | some p =>
        rw [stepEv, onMessage_attached t st c bytes json p hj hp]
        cases ho : t json p <;> exact ⟨h1, h2, h3, h4, h5, h6, h7⟩
      | none =>
        rw [stepEv, onMessage_fresh t st c bytes json hj hp]
        have hcreated0 : createdFor c st = [] := by
          by_contra hne
          have := (h6 c hco).mpr hne
          rw [hp] at this
          exact absurd this (by simp)
        have key : ∀ st' : GState,
            st'.webSocketsCount = st.webSocketsCount →
            st'.peers = (fun c' => if c' = c then some st.nextPeer else st.peers c') →
            st'.created = st.created ++ [(c, st.nextPeer)] →
            InvWf st' oS eS := by
          intro st' hw hpe hcr
          refine ⟨hw ▸ h1, h2, ?_, ?_, ?_, ?_, ?_⟩
          · intro c' hc'
            have hcc : c' ≠ c := fun hcc => hc' (hcc ▸ hco)
            rw [hpe]
            simp only [hcc, if_false]
            exact h3 c' hc'
          · intro c' q hq
            rw [hpe] at hq
            simp only at hq
            by_cases hcc : c' = c
            · subst hcc
              simp only [if_pos rfl] at hq
              have hqtok : q = st.nextPeer := by
                exact (Option.some.inj hq).symm
              rw [createdFor_push_self c' st.nextPeer st st' hcr, hcreated0, hqtok]
              rfl
            · simp only [hcc, if_false] at hq
              rw [createdFor_push_other c c' st.nextPeer hcc st st' hcr]
              exact h4 c' q hq
          · intro c'
            by_cases hcc : c' = c
            · subst hcc
              rw [createdFor_push_self c' st.nextPeer st st' hcr, hcreated0]
              simp
            · rw [createdFor_push_other c c' st.nextPeer hcc st st' hcr]
              exact h5 c'
          · intro c' hc'
            by_cases hcc : c' = c
            · subst hcc
              rw [createdFor_push_self c' st.nextPeer st st' hcr, hcreated0, hpe]
              simp
            · rw [createdFor_push_other c c' st.nextPeer hcc st st' hcr, hpe]
              simp only [hcc, if_false]
              exact h6 c' hc'
          · intro c' hc'
            have hcc : c' ≠ c := fun hcc => hc' (hcc ▸ h2 hco)
            rw [createdFor_push_other c c' st.nextPeer hcc st st' hcr]
            exact h7 c' hc'
        cases ho : t json st.nextPeer <;> exact key _ rfl rfl rfl

/-- The well-formed-trace invariant holds along any well-formed trace. -/
theorem invWf_run (t : TrackerBeh) : ∀ (es : List Event) (st : GState) (oS eS : Finset Nat),
    wfFrom oS eS es = true → InvWf st oS eS →
    InvWf (es.foldl (stepEv t) st) ((es.foldl envStep (oS, eS)).1)
      ((es.foldl envStep (oS, eS)).2) := by
  intro es
  induction es with
  | nil => exact fun st oS eS _ h => h
  | cons e es ih =>
    intro st oS eS hwf h
    cases e with
    | openEv c =>
      simp only [wfFrom, Bool.and_eq_true, decide_eq_true_eq] at hwf
      exact ih _ _ _ hwf.2 (invWf_step t st (.openEv c) oS eS hwf.1 h)
    | messageEv c bytes =>
      simp only [wfFrom, Bool.and_eq_true, decide_eq_true_eq] at hwf
      exact ih _ _ _ hwf.2 (invWf_step t st (.messageEv c bytes) oS eS hwf.1 h)
    | drainEv c =>
      simp only [wfFrom, Bool.and_eq_true, decide_eq_true_eq] at hwf
      exact ih _ _ _ hwf.2 (invWf_step t st (.drainEv c) oS eS hwf.1 h)
    | closeEv c =>
      simp only [wfFrom, Bool.and_eq_true, decide_eq_true_eq] at hwf
      exact ih _ _ _ hwf.2 (invWf_step t st (.closeEv c) oS eS hwf.1 h)

/-- The well-formed-trace invariant holds at the initial state. -/
theorem invWf_init : InvWf initG ∅ ∅ := by
  refine ⟨by simp [initG], by simp, fun c _ => rfl, ?_, ?_, ?_, fun c _ => rfl⟩
  · intro c p h
    exact absurd h (by simp [initG])
  · intro c
    simp [createdFor, initG]
  · intro c hc
    exact absurd hc (by simp)

/-- One step changes `createdFor c` from empty to nonempty exactly when the
event is a successfully decoding message frame for `c` (given the
invariant; note an already-attached peer implies `createdFor c` was already
nonempty). -/
theorem createdFor_step_iff (t : TrackerBeh) (st : GState) (e : Event)
    (oS eS : Finset Nat) (h : InvWf st oS eS) (c : Nat) :
    (createdFor c (stepEv t st e) ≠ [] ↔
      createdFor c st ≠ [] ∨ msgDecodedFor c e = true) := by
  obtain ⟨h1, h2, h3, h4, h5, h6, h7⟩ := h
  cases e with
  | openEv c' => simp [stepEv, onOpen, msgDecodedFor, createdFor]
  | drainEv c' => simp [stepEv, onDrain, msgDecodedFor]
  | closeEv c' =>
    cases hp : st.peers c' <;>
      simp [stepEv, onClose, hp, msgDecodedFor, createdFor]
  | messageEv c' bytes =>
    cases hj : jsonParse (decodeFrame bytes) with
    | none => simp [stepEv, onMessage, hj, msgDecodedFor, createdFor]
    | some json =>
      cases hp : st.peers c' with
      | some p =>
        rw [stepEv, onMessage_attached t st c' bytes json p hj hp]
        have hne : createdFor c' st ≠ [] := by
          rw [h4 c' p hp]
          simp
        by_cases hcc : c' = c
        · subst hcc
          have hrec : ∀ st' : GState, st'.created = st.created →
              (createdFor c' st' ≠ [] ↔
                createdFor c' st ≠ [] ∨ msgDecodedFor c' (Event.messageEv c' bytes) = true) := by
            intro st' hcr
            rw [createdFor_congr c' st st' hcr]
            simp [msgDecodedFor, hj, hne]
          cases ho : t json p <;> exact hrec _ rfl
        · have hbeq : (c' == c) = false := by simp [hcc]
          have hrec : ∀ st' : GState, st'.created = st.created →
              (createdFor c st' ≠ [] ↔
                createdFor c st ≠ [] ∨ msgDecodedFor c (Event.messageEv c' bytes) = true) := by
            intro st' hcr
            rw [createdFor_congr c st st' hcr]
            simp [msgDecodedFor, hj, hbeq]
          cases ho : t json p <;> exact hrec _ rfl
      | none =>
        rw [stepEv, onMessage_fresh t st c' bytes json hj hp]
        by_cases hcc : c' = c
        · subst hcc
          have hrec : ∀ st' : GState, st'.created = st.created ++ [(c', st.nextPeer)] →
              (createdFor c' st' ≠ [] ↔
                createdFor c' st ≠ [] ∨ msgDecodedFor c' (Event.messageEv c' bytes) = true) := by
            intro st' hcr
            rw [createdFor_push_self c' st.nextPeer st st' hcr]
            simp [msgDecodedFor, hj]
          cases ho : t json st.nextPeer <;> exact hrec _ rfl
        · have hccs : c ≠ c' := fun hx => hcc hx.symm
          have hbeq : (c' == c) = false := by simp [hcc]
          have hrec : ∀ st' : GState, st'.created = st.created ++ [(c', st.nextPeer)] →
              (createdFor c st' ≠ [] ↔
                createdFor c st ≠ [] ∨ msgDecodedFor c (Event.messageEv c' bytes) = true) := by
            intro st' hcr
            rw [createdFor_push_other c' c st.nextPeer hccs st st' hcr]
            simp [msgDecodedFor, hj, hbeq]
          cases ho : t json st.nextPeer <;> exact hrec _ rfl

/-- Along a well-formed trace, the peer-creation log for `c` is nonempty
exactly when some already-delivered frame for `c` decoded successfully. -/
theorem createdFor_iff_decoded (t : TrackerBeh) :
    ∀ (es : List Event) (st : GState) (oS eS : Finset Nat),
      wfFrom oS eS es = true → InvWf st oS eS → ∀ c,
      (createdFor c (es.foldl (stepEv t) st) ≠ [] ↔
        createdFor c st ≠ [] ∨ decodedForB c es = true) := by
  intro es
  induction es with
  | nil =>
    intro st oS eS _ _ c
    simp [decodedForB]
  | cons e es ih =>
    intro st oS eS hwf h c
    have hstep := createdFor_step_iff t st e oS eS h c
    have hnext : ∃ oS' eS', wfFrom oS' eS' es = true ∧
        InvWf (stepEv t st e) oS' eS' := by
      cases e with
      | openEv c' =>
        simp only [wfFrom, Bool.and_eq_true, decide_eq_true_eq] at hwf
        exact ⟨_, _, hwf.2, invWf_step t st (.openEv c') oS eS hwf.1 h⟩
      | messageEv c' bytes =>
        simp only [wfFrom, Bool.and_eq_true, decide_eq_true_eq] at hwf
        exact ⟨_, _, hwf.2, invWf_step t st (.messageEv c' bytes) oS eS hwf.1 h⟩
      | drainEv c' =>
        simp only [wfFrom, Bool.and_eq_true, decide_eq_true_eq] at hwf
        exact ⟨_, _, hwf.2, invWf_step t st (.drainEv c') oS eS hwf.1 h⟩
      | closeEv c' =>
        simp only [wfFrom, Bool.and_eq_true, decide_eq_true_eq] at hwf
        exact ⟨_, _, hwf.2, invWf_step t st (.closeEv c') oS eS hwf.1 h⟩
    obtain ⟨oS', eS', hwf', h'⟩ := hnext
    have hiter := ih (stepEv t st e) oS' eS' hwf' h' c
    rw [List.foldl_cons, hiter, hstep]
    simp [decodedForB, List.any_cons, Bool.or_eq_true]
    tauto

/-- Transport-well-formedness splits across trace concatenation. -/
theorem wfFrom_append : ∀ (es1 es2 : List Event) (oS eS : Finset Nat),
    wfFrom oS eS (es1 ++ es2)
      = (wfFrom oS eS es1 &&
          wfFrom ((es1.foldl envStep (oS, eS)).1) ((es1.foldl envStep (oS, eS)).2) es2) := by
  intro es1
  induction es1 with
  | nil =>
    intro es2 oS eS
    simp [wfFrom]
  | cons e es ih =>
    intro es2 oS eS
    cases e <;> simp [wfFrom, envStep, ih, Bool.and_assoc]

/-- C1 amended: along transport-well-formed traces (every close targets a
currently-open connection, each connection opened and closed at most once),
the live-connection counter equals the number of opened-but-not-yet-closed
connections at every observation point and never goes negative.  (Without
that restriction the claim fails: the close handler decrements
unconditionally, see the repeated-close counterexample.) -/
theorem counter_equals_open_connections (t : TrackerBeh) (es : List Event)
    (h : wfTrace es = true) :
    (runG t es).webSocketsCount = ((envRun es).1.card : Int) ∧
    0 ≤ (runG t es).webSocketsCount := by
  have hinv := invWf_run t es initG ∅ ∅ h invWf_init
  refine ⟨hinv.1, ?_⟩
  show 0 ≤ (es.foldl (stepEv t) initG).webSocketsCount
  rw [hinv.1]
  exact Int.natCast_nonneg _

/-- Witness for C1 amended: two opens and one close leave the counter at
the number of open connections. -/
theorem counter_equals_open_connections_witness :
    wfTrace [Event.openEv 0, Event.openEv 1, Event.closeEv 0] = true ∧
    (runG trackerOk [Event.openEv 0, Event.openEv 1, Event.closeEv 0]).webSocketsCount
      = ((envRun [Event.openEv 0, Event.openEv 1, Event.closeEv 0]).1.card : Int) ∧
    0 ≤ (runG trackerOk [Event.openEv 0, Event.openEv 1, Event.closeEv 0]).webSocketsCount :=
  ⟨by decide,
    (counter_equals_open_connections trackerOk
      [Event.openEv 0, Event.openEv 1, Event.closeEv 0] (by decide)).1,
    (counter_equals_open_connections trackerOk
      [Event.openEv 0, Event.openEv 1, Event.closeEv 0] (by decide)).2⟩

/-- C5 (confirmed): along well-formed traces, at most one `PeerContext` is
ever created per connection; one exists only if some frame for that
connection decoded successfully (so creation is no earlier than the first
successfully decoded message); and the attached context is the unique one
ever created, so every resolution between creation and close yields that
same instance. -/
theorem peer_context_unique (t : TrackerBeh) (es : List Event) (c : Nat)
    (h : wfTrace es = true) :
    (createdFor c (runG t es)).length ≤ 1 ∧
    (createdFor c (runG t es) ≠ [] → decodedForB c es = true) ∧
    (∀ p, (runG t es).peers c = some p → createdFor c (runG t es) = [p]) := by
  have hinv := invWf_run t es initG ∅ ∅ h invWf_init
  obtain ⟨-, -, -, h4, h5, -, -⟩ := hinv
  refine ⟨h5 c, ?_, fun p hp => h4 c p hp⟩
  intro hne
  have hiff := (createdFor_iff_decoded t es initG ∅ ∅ h invWf_init c).mp hne
  rcases hiff with hbad | hdec
  · exact absurd rfl hbad
  · exact hdec

/-- Witness for C5: one connection, two decoded frames — a single context
token, attached throughout. -/
theorem peer_context_unique_witness :
    wfTrace [Event.openEv 0, Event.messageEv 0 [0x35], Event.messageEv 0 [0x31]] = true ∧
    (createdFor 0 (runG trackerOk
      [Event.openEv 0, Event.messageEv 0 [0x35], Event.messageEv 0 [0x31]])).length ≤ 1 ∧
    (createdFor 0 (runG trackerOk
        [Event.openEv 0, Event.messageEv 0 [0x35], Event.messageEv 0 [0x31]]) ≠ [] →
      decodedForB 0 [Event.openEv 0, Event.messageEv 0 [0x35], Event.messageEv 0 [0x31]] = true) :=
  ⟨by decide,
    (peer_context_unique trackerOk
      [Event.openEv 0, Event.messageEv 0 [0x35], Event.messageEv 0 [0x31]] 0 (by decide)).1,
    (peer_context_unique trackerOk
      [Event.openEv 0, Event.messageEv 0 [0x35], Event.messageEv 0 [0x31]] 0 (by decide)).2.1⟩

/-- C10 (confirmed): on a well-formed close, `disconnectPeer` is invoked
iff at least one frame on that connection decoded successfully before the
close — independent of the tracker's outcomes, because the context is
attached before `processMessage` is invoked (a protocol-error-triggering
message still yields a disconnect notification), and a connection none of
whose frames decoded never triggers `disconnectPeer`. -/
theorem disconnect_iff_decoded_on_close (t : TrackerBeh) (es : List Event) (c : Nat)
    (h : wfTrace (es ++ [Event.closeEv c]) = true) :
    (decodedForB c es = true →
      ∃ p, (runG t (es ++ [Event.closeEv c])).calls
          = (runG t es).calls ++ [TCall.disconnectPeer p]) ∧
    (decodedForB c es = false →
      (runG t (es ++ [Event.closeEv c])).calls = (runG t es).calls) := by
  have hs := h
  rw [wfTrace, wfFrom_append, Bool.and_eq_true] at hs
  obtain ⟨hwf, hclose⟩ := hs
  have hmem : c ∈ (es.foldl envStep (∅, ∅)).1 := by
    simp only [wfFrom, Bool.and_eq_true, decide_eq_true_eq] at hclose
    exact hclose.1
  have hinv := invWf_run t es initG ∅ ∅ hwf invWf_init
  obtain ⟨-, -, -, -, -, h6, -⟩ := hinv
  have hiff : ((runG t es).peers c).isSome = true ↔ decodedForB c es = true := by
    show ((es.foldl (stepEv t) initG).peers c).isSome = true ↔ decodedForB c es = true
    rw [h6 c hmem, createdFor_iff_decoded t es initG ∅ ∅ hwf invWf_init c]
    have hinit : createdFor 0 initG = [] := rfl
    constructor
    · intro hor
      rcases hor with hbad | hdec
      · exact absurd rfl hbad
      · exact hdec
    · intro hdec
      exact Or.inr hdec
  constructor
  · intro hdec
    have hsome : ((runG t es).peers c).isSome = true := hiff.mpr hdec
    obtain ⟨p, hp⟩ := Option.isSome_iff_exists.mp hsome
    refine ⟨p, ?_⟩
    rw [runG_append]
    simp [stepEv, onClose, hp]
  · intro hdec
    have hnone : (runG t es).peers c = none := by
      cases hq : (runG t es).peers c with
      | none => rfl
      | some p => exact absurd (hiff.mp (by simp [hq])) (by simp [hdec])
    rw [runG_append]
    simp [stepEv, onClose, hnone]

/-- Witness for C10: a decoded frame yields a disconnect notification on
close; a connection whose only frame failed to decode yields none. -/
theorem disconnect_iff_decoded_on_close_witness :
    (wfTrace ([Event.openEv 0, Event.messageEv 0 [0x35]] ++ [Event.closeEv 0]) = true ∧
     decodedForB 0 [Event.openEv 0, Event.messageEv 0 [0x35]] = true ∧
     ∃ p, (runG trackerOk ([Event.openEv 0, Event.messageEv 0 [0x35]] ++ [Event.closeEv 0])).calls
        = (runG trackerOk [Event.openEv 0, Event.messageEv 0 [0x35]]).calls
            ++ [TCall.disconnectPeer p]) ∧
    (wfTrace ([Event.openEv 1, Event.messageEv 1 [0x41]] ++ [Event.closeEv 1]) = true ∧
     decodedForB 1 [Event.openEv 1, Event.messageEv 1 [0x41]] = false ∧
     (runG trackerOk ([Event.openEv 1, Event.messageEv 1 [0x41]] ++ [Event.closeEv 1])).calls
        = (runG trackerOk [Event.openEv 1, Event.messageEv 1 [0x41]]).calls) :=
  ⟨⟨by decide, rfl,
      (disconnect_iff_decoded_on_close trackerOk
        [Event.openEv 0, Event.messageEv 0 [0x35]] 0 (by decide)).1 rfl⟩,
    ⟨by decide, rfl,
      (disconnect_iff_decoded_on_close trackerOk
        [Event.openEv 1, Event.messageEv 1 [0x41]] 1 (by decide)).2 rfl⟩⟩

/-- Every character `digitChar` produces is a decimal digit. -/
theorem digitChar_isDigit (n : Nat) : (digitChar n).isDigit = true := by
  unfold digitChar
  split <;> decide

/-- The numeric value parsed back from `digitChar d`, for `d < 10`. -/
theorem digitChar_toNat (d : Nat) (h : d < 10) : (digitChar d).toNat - 48 = d := by
  interval_cases d <;> decide

/-- `digitChar d` is `'0'` only for `d = 0` (within range). -/
theorem digitChar_ne_zero (d : Nat) (h1 : 1 ≤ d) (h9 : d ≤ 9) : digitChar d ≠ '0' := by
  interval_cases d <;> decide

/-- A digit character differs from any non-digit character. -/
theorem ne_of_isDigit (c x : Char) (h : c.isDigit = true) (hx : x.isDigit = false) :
    c ≠ x := by
  intro he
  rw [he, hx] at h
  cases h

/-- Digit characters are not JSON whitespace. -/
theorem isWsChar_of_isDigit (c : Char) (h : c.isDigit = true) : isWsChar c = false := by
  by_cases h1 : c = ' '
  · rw [h1] at h; cases h
  by_cases h2 : c = Char.ofNat 9
  · rw [h2] at h; cases h
  by_cases h3 : c = Char.ofNat 10
  · rw [h3] at h; cases h
  by_cases h4 : c = Char.ofNat 13
  · rw [h4] at h; cases h
  simp [isWsChar, h1, h2, h3, h4]

/-- `skipWs` does not consume a non-whitespace head. -/
theorem skipWs_cons (c : Char) (cs : List Char) (h : isWsChar c = false) :
    skipWs (c :: cs) = c :: cs := by
  simp [skipWs, h]

/-- `parseDigits` stops at a non-digit (or empty) remainder. -/
theorem parseDigits_stop (acc : Nat) (rest : List Char)
    (h : ∀ ch, rest.head? = some ch → ch.isDigit = false) :
    parseDigits acc rest = (acc, rest) := by
  cases rest with
  | nil => rfl
  | cons ch rest' =>
    have := h ch rfl
    simp [parseDigits, this]

/-- `parseDigits` folds the digits of `natToCharsAux` back onto the
accumulator. -/
theorem parseDigits_natToCharsAux (f : Nat) :
    ∀ (n : Nat), n < f → ∀ (acc : Nat) (rest : List Char),
      parseDigits acc (natToCharsAux f n ++ rest)
        = parseDigits (acc * 10 ^ (natToCharsAux f n).length + n) rest := by
  induction f with
  | zero => intro n hn; omega
  | succ f ih =>
    intro n hn acc rest
    by_cases h10 : n < 10
    · simp only [natToCharsAux, if_pos h10, List.singleton_append, List.length_singleton]
      rw [parseDigits]
      rw [if_pos (digitChar_isDigit n)]
      rw [digitChar_toNat n h10]
      ring_nf
    · have hpos : 0 < n := by omega
      have hdiv : n / 10 < n := Nat.div_lt_self hpos (by omega)
      have hf : n / 10 < f := by omega
      simp only [natToCharsAux, if_neg h10, List.append_assoc, List.length_append,
        List.length_singleton]
      rw [List.singleton_append]
      rw [ih (n / 10) hf acc (digitChar (n % 10) :: rest)]
      rw [parseDigits]
      rw [if_pos (digitChar_isDigit (n % 10))]
      rw [digitChar_toNat (n % 10) (Nat.mod_lt n (by omega))]
      congr 1
      set L := (natToCharsAux f (n / 10)).length
      rw [pow_succ]
      ring_nf
      omega

/-- The digits of a positive number start with a nonzero digit. -/
theorem natToCharsAux_head (f : Nat) :
    ∀ (n : Nat), n < f → 1 ≤ n →
      ∃ d cs, natToCharsAux f n = digitChar d :: cs ∧ 1 ≤ d ∧ d ≤ 9 := by
  induction f with
  | zero => intro n hn; omega
  | succ f ih =>
    intro n hn h1
    by_cases h10 : n < 10
    · exact ⟨n, [], by simp [natToCharsAux, h10], h1, by omega⟩
    · have hpos : 0 < n := by omega
      have hdiv : n / 10 < n := Nat.div_lt_self hpos (by omega)
      have hf : n / 10 < f := by omega
      have h1' : 1 ≤ n / 10 := by
        have : 10 ≤ n := by omega
        omega
      obtain ⟨d, cs, heq, hd1, hd9⟩ := ih (n / 10) hf h1'
      refine ⟨d, cs ++ [digitChar (n % 10)], ?_, hd1, hd9⟩
      simp [natToCharsAux, h10, heq]

/-- `natToChars` emits at least one character. -/
theorem natToChars_ne_nil (n : Nat) : natToChars n ≠ [] := by
  unfold natToChars natToCharsAux
  split <;> simp

/-- `parseNumNat` reads back `natToChars`. -/
theorem parseNumNat_natToChars (n : Nat) (rest : List Char)
    (hrest : ∀ ch, rest.head? = some ch → ch.isDigit = false) :
    parseNumNat (natToChars n ++ rest) = some (n, rest) := by
  by_cases hn : n = 0
  · subst hn
    show parseNumNat ('0' :: rest) = some (0, rest)
    simp [parseNumNat]
  · obtain ⟨d, cs, heq, hd1, hd9⟩ := natToCharsAux_head (n + 1) n (by omega) (by omega)
    have hwhole := parseDigits_natToCharsAux (n + 1) n (by omega) 0 rest
    rw [parseDigits_stop _ rest hrest] at hwhole
    simp only [natToChars] at hwhole ⊢
    rw [heq] at hwhole ⊢
    rw [List.cons_append] at hwhole ⊢
    rw [parseDigits, if_pos (digitChar_isDigit d)] at hwhole
    norm_num at hwhole
    rw [parseNumNat]
    rw [if_neg (digitChar_ne_zero d hd1 hd9), if_pos (digitChar_isDigit d)]
    rw [hwhole]

/-- `parseNumber` reads back `intToChars`. -/
theorem parseNumber_intToChars (n : Int) (rest : List Char)
    (hrest : ∀ ch, rest.head? = some ch → ch.isDigit = false) :
    parseNumber (intToChars n ++ rest) = some (n, rest) := by
  by_cases hneg : n < 0
  · rw [intToChars, if_pos hneg, List.cons_append]
    rw [parseNumber, if_pos rfl]
    rw [parseNumNat_natToChars n.natAbs rest hrest]
    have hval : -((n.natAbs : Nat) : Int) = n := by omega
    show some (-((n.natAbs : Nat) : Int), rest) = some (n, rest)
    rw [hval]
  · rw [intToChars, if_neg hneg]
    have hne : natToChars n.toNat ++ rest ≠ [] := by
      intro hnil
      exact natToChars_ne_nil n.toNat (List.append_eq_nil.mp hnil).1
    cases hlist : natToChars n.toNat ++ rest with
    | nil => exact absurd hlist hne
    | cons c0 cs0 =>
      have hdig : c0.isDigit = true ∨ c0 = '0' := by
        by_cases hz : n.toNat = 0
        · rw [hz] at hlist
          have : c0 = '0' := by
            have : ('0' :: rest) = c0 :: cs0 := hlist
            exact (List.cons.inj this).1.symm
          exact Or.inr this
        · obtain ⟨d, cs, heq, hd1, hd9⟩ :=
            natToCharsAux_head (n.toNat + 1) n.toNat (by omega) (by omega)
          simp only [natToChars] at hlist
          rw [heq, List.cons_append] at hlist
          have : digitChar d = c0 := (List.cons.inj hlist).1
          exact Or.inl (this ▸ digitChar_isDigit d)
      have hcne : c0 ≠ '-' := by
        rcases hdig with hd | hd
        · exact ne_of_isDigit c0 '-' hd (by decide)
        · rw [hd]; decide
      show (if c0 = '-' then (parseNumNat cs0).map (fun p => (-(p.1 : Int), p.2))
            else (parseNumNat (c0 :: cs0)).map (fun p => ((p.1 : Int), p.2))) = some (n, rest)
      rw [if_neg hcne, ← hlist]
      rw [parseNumNat_natToChars n.toNat rest hrest]
      have hval : ((n.toNat : Nat) : Int) = n := by omega
      show some (((n.toNat : Nat) : Int), rest) = some (n, rest)
      rw [hval]

/-- `hexVal` inverts `hexDigitChar` on one hex digit. -/
theorem hexVal_hexDigitChar (x : Nat) (h : x < 16) :
    hexVal (hexDigitChar x) = some x := by
  interval_cases x <;> decide

/-- `Char.ofNat` inverts `Char.toNat`. -/
theorem charOfNat_toNat (c : Char) : Char.ofNat c.toNat = c := Char.ofNat_toNat c

/-- `parseStringBody` unescapes one `escChar`-escaped character and
continues. -/
theorem parseStringBody_escChar (c : Char) (k rest : List Char) (content : List Char)
    (hk : parseStringBody k = some (content, rest)) :
    parseStringBody (escChar c ++ k) = some (c :: content, rest) := by
  unfold escChar
  by_cases h1 : c = '"'
  · subst h1
    simp only [reduceIte]
    rw [show (['\\', '"'] ++ k : List Char) = '\\' :: '"' :: k from rfl]
    rw [parseStringBody.eq_def]
    simp [hk]
  rw [if_neg h1]
  by_cases h2 : c = '\\'
  · subst h2
    simp only [reduceIte]
    rw [show (['\\', '\\'] ++ k : List Char) = '\\' :: '\\' :: k from rfl]
    rw [parseStringBody.eq_def]
    simp [hk]
  rw [if_neg h2]
  by_cases h3 : c = Char.ofNat 8
  · subst h3
    simp only [reduceIte]
    rw [show (['\\', 'b'] ++ k : List Char) = '\\' :: 'b' :: k from rfl]
    rw [parseStringBody.eq_def]
    simp [hk]
  rw [if_neg h3]
  by_cases h4 : c = Char.ofNat 9
  · subst h4
    simp only [reduceIte]
    rw [show (['\\', 't'] ++ k : List Char) = '\\' :: 't' :: k from rfl]
    rw [parseStringBody.eq_def]
    simp [hk]
  rw [if_neg h4]
  by_cases h5 : c = Char.ofNat 10
  · subst h5
    simp only [reduceIte]
    rw [show (['\\', 'n'] ++ k : List Char) = '\\' :: 'n' :: k from rfl]
    rw [parseStringBody.eq_def]
    simp [hk]
  rw [if_neg h5]
  by_cases h6 : c = Char.ofNat 12
  · subst h6
    simp only [reduceIte]
    rw [show (['\\', 'f'] ++ k : List Char) = '\\' :: 'f' :: k from rfl]
    rw [parseStringBody.eq_def]
    simp [hk]
  rw [if_neg h6]
  by_cases h7 : c = Char.ofNat 13
  · subst h7
    simp only [reduceIte]
    rw [show (['\\', 'r'] ++ k : List Char) = '\\' :: 'r' :: k from rfl]
    rw [parseStringBody.eq_def]
    simp [hk]
  rw [if_neg h7]
  by_cases h8 : c.toNat < 32
  · rw [if_pos h8]
    have hdiv : c.toNat / 16 < 16 := by omega
    have hmod : c.toNat % 16 < 16 := by omega
    simp only [List.cons_append, List.nil_append]
    rw [parseStringBody.eq_def]
    simp only [reduceIte, hexVal_hexDigitChar _ hdiv, hexVal_hexDigitChar _ hmod]
    simp [hexVal, hk]
    have hval : c.toNat / 16 * 16 + c.toNat % 16 = c.toNat := by omega
    rw [hval, charOfNat_toNat]
  · rw [if_neg h8]
    simp only [List.cons_append, List.nil_append]
    rw [parseStringBody.eq_def]
    simp [h1, h2, h8, hk]

/-- `parseStringBody` reads back an escaped string body up to the closing
quote. -/
theorem parseStringBody_escape (s : List Char) (rest : List Char) :
    parseStringBody (escapeList s ++ '"' :: rest) = some (s, rest) := by
  induction s with
  | nil =>
    rw [show escapeList [] ++ '"' :: rest = '"' :: rest from rfl]
    rw [parseStringBody.eq_def]
    simp
  | cons c cs ih =>
    rw [escapeList, List.append_assoc]
    exact parseStringBody_escChar c _ rest cs ih

/-- Helper: a non-digit head discharges the number-stop side condition. -/
theorem head_not_digit (c : Char) (cs : List Char) (h : c.isDigit = false) :
    ∀ ch, (c :: cs).head? = some ch → ch.isDigit = false := by
  intro ch hch
  simp only [List.head?_cons, Option.some.injEq] at hch
  rw [← hch]
  exact h

/-- The decimal serialization of an integer starts with a sign or a
digit. -/
theorem intToChars_head (n : Int) :
    ∃ c0 cs0, intToChars n = c0 :: cs0 ∧ (c0 = '-' ∨ c0.isDigit = true) := by
  by_cases hneg : n < 0
  · exact ⟨'-', natToChars n.natAbs, by rw [intToChars, if_pos hneg], Or.inl rfl⟩
  · by_cases hz : n.toNat = 0
    · refine ⟨'0', [], ?_, Or.inr (by decide)⟩
      rw [intToChars, if_neg hneg, hz]
      rfl
    · obtain ⟨d, cs, heq, hd1, hd9⟩ :=
        natToCharsAux_head (n.toNat + 1) n.toNat (by omega) (by omega)
      refine ⟨digitChar d, cs, ?_, Or.inr (digitChar_isDigit d)⟩
      rw [intToChars, if_neg hneg]
      simp only [natToChars]
      exact heq

/-- The first character of a serialized value is never whitespace, a
closing bracket, or a closing brace. -/
theorem serializeChars_head (v : Json) :
    ∃ c0 cs0, serializeChars v = c0 :: cs0 ∧ isWsChar c0 = false ∧
      c0 ≠ ']' ∧ c0 ≠ rbrace := by
  cases v with
  | null =>
    refine ⟨'n', _, rfl, ?_, ?_, ?_⟩ <;> decide
  | bool b =>
    cases b
    · refine ⟨'f', _, rfl, ?_, ?_, ?_⟩ <;> decide
    · refine ⟨'t', _, rfl, ?_, ?_, ?_⟩ <;> decide
  | str s =>
    refine ⟨'"', _, rfl, ?_, ?_, ?_⟩ <;> decide
  | arr xs =>
    refine ⟨'[', _, rfl, ?_, ?_, ?_⟩ <;> decide
  | obj kvs =>
    refine ⟨lbrace, _, rfl, ?_, ?_, ?_⟩ <;> decide
  | num n =>
    obtain ⟨c0, cs0, hhead, hnum⟩ := intToChars_head n
    refine ⟨c0, cs0, hhead, ?_, ?_, ?_⟩
    · rcases hnum with h | h
      · rw [h]; decide
      · exact isWsChar_of_isDigit c0 h
    · rcases hnum with h | h
      · rw [h]; decide
      · exact ne_of_isDigit c0 ']' h (by decide)
    · rcases hnum with h | h
      · rw [h]; decide
      · exact ne_of_isDigit c0 rbrace h (by decide)

/-- A nonempty element list serializes to its head's serialization followed
by a (possibly empty) tail. -/
theorem serElems_shape (x : Json) (xs : List Json) :
    ∃ t, serElems (x :: xs) = serializeChars x ++ t ∧
      (xs = [] → t = []) ∧ (xs ≠ [] → t = ',' :: serElems xs) := by
  cases xs with
  | nil =>
    refine ⟨[], by simp [serElems], fun _ => rfl, fun h => absurd rfl h⟩
  | cons y ys =>
    refine ⟨',' :: serElems (y :: ys), rfl, ?_, fun _ => rfl⟩
    intro h
    exact absurd h (by simp)

/-- One-step unfolding of `parseVal` at positive fuel. -/
theorem parseVal_succ (f : Nat) (cs : List Char) :
    parseVal (f + 1) cs =
      match skipWs cs with
      | [] => none
      | c :: cs1 =>
        if c = 'n' then
          match cs1 with
          | 'u' :: 'l' :: 'l' :: r => some (.null, r)
          | _ => none
        else if c = 't' then
          match cs1 with
          | 'r' :: 'u' :: 'e' :: r => some (.bool true, r)
          | _ => none
        else if c = 'f' then
          match cs1 with
          | 'a' :: 'l' :: 's' :: 'e' :: r => some (.bool false, r)
          | _ => none
        else if c = '"' then
          (parseStringBody cs1).map (fun p => (.str (String.mk p.1), p.2))
        else if c = '[' then
          match skipWs cs1 with
          | [] => none
          | c2 :: r2 =>
            if c2 = ']' then some (.arr [], r2)
            else (parseElems f (c2 :: r2)).map (fun p => (.arr p.1, p.2))
        else if c = lbrace then
          match skipWs cs1 with
          | [] => none
          | c2 :: r2 =>
            if c2 = rbrace then some (.obj [], r2)
            else (parseMems f (c2 :: r2)).map (fun p => (.obj p.1, p.2))
        else if c = '-' ∨ c.isDigit then
          (parseNumber (c :: cs1)).map (fun p => (.num p.1, p.2))
        else none := rfl

/-- One-step unfolding of `parseElems` at positive fuel. -/
theorem parseElems_succ (f : Nat) (cs : List Char) :
    parseElems (f + 1) cs =
      match parseVal f cs with
      | none => none
      | some (v, rest) =>
        match skipWs rest with
        | [] => none
        | c :: rest1 =>
          if c = ',' then
            match parseElems f rest1 with
            | some (vs, r) => some (v :: vs, r)
            | none => none
          else if c = ']' then some ([v], rest1)
          else none := rfl

/-- One-step unfolding of `parseMems` at positive fuel. -/
theorem parseMems_succ (f : Nat) (cs : List Char) :
    parseMems (f + 1) cs =
      match skipWs cs with
      | [] => none
      | c :: cs1 =>
        if c = '"' then
          match parseStringBody cs1 with
          | none => none
          | some (k, rest) =>
            match skipWs rest with
            | [] => none
            | c2 :: rest1 =>
              if c2 = ':' then
                match parseVal f rest1 with
                | none => none
                | some (v, rest2) =>
                  match skipWs rest2 with
                  | [] => none
                  | c3 :: rest3 =>
                    if c3 = ',' then
                      match parseMems f rest3 with
                      | some (ms, r) => some ((String.mk k, v) :: ms, r)
                      | none => none
                    else if c3 = rbrace then some ([(String.mk k, v)], rest3)
                    else none
              else none
        else none := rfl

/-- The parsers read back serialized values, element lists and member
lists, given enough fuel. -/
theorem parse_serialize : ∀ f : Nat,
    (∀ (v : Json) (rest : List Char), fuelVal v ≤ f →
      (∀ ch, rest.head? = some ch → ch.isDigit = false) →
      parseVal f (serializeChars v ++ rest) = some (v, rest)) ∧
    (∀ (x : Json) (xs : List Json) (rest : List Char), fuelElems (x :: xs) ≤ f →
      parseElems f (serElems (x :: xs) ++ ']' :: rest) = some (x :: xs, rest)) ∧
    (∀ (k : String) (v : Json) (ms : List (String × Json)) (rest : List Char),
      fuelMems ((k, v) :: ms) ≤ f →
      parseMems f (serMems ((k, v) :: ms) ++ rbrace :: rest) = some ((k, v) :: ms, rest)) := by
  intro f
  induction f with
  | zero =>
    refine ⟨?_, ?_, ?_⟩
    · intro v rest hf hrest
      exact absurd hf (by cases v <;> simp [fuelVal])
    · intro x xs rest hf
      exact absurd hf (by simp [fuelElems])
    · intro k v ms rest hf
      exact absurd hf (by simp [fuelMems])
  | succ f ih =>
    obtain ⟨ihV, ihE, ihM⟩ := ih
    refine ⟨?_, ?_, ?_⟩
    · intro v rest hf hrest
      cases v with
      | null => rfl
      | bool b =>
        cases b
        · rfl
        · rfl
      | str s =>
        rw [show serializeChars (Json.str s) ++ rest
            = '"' :: (escapeList s.data ++ '"' :: rest) by
          show ('"' :: escapeList s.data ++ ['"']) ++ rest = _
          simp]
        rw [parseVal_succ, skipWs_cons _ _ (by decide)]
        simp only [reduceIte]
        rw [parseStringBody_escape s.data rest]
        rfl
      | num n =>
        obtain ⟨c0, cs0, hhead, hnum⟩ := intToChars_head n
        have hser : serializeChars (Json.num n) = intToChars n := rfl
        have hws : isWsChar c0 = false := by
          rcases hnum with h | h
          · rw [h]; decide
          · exact isWsChar_of_isDigit c0 h
        have hd1 : ¬c0 = 'n' := by
          rcases hnum with h | h
          · rw [h]; decide
          · exact ne_of_isDigit c0 'n' h (by decide)
        have hd2 : ¬c0 = 't' := by
          rcases hnum with h | h
          · rw [h]; decide
          · exact ne_of_isDigit c0 't' h (by decide)
        have hd3 : ¬c0 = 'f' := by
          rcases hnum with h | h
          · rw [h]; decide
          · exact ne_of_isDigit c0 'f' h (by decide)
        have hd4 : ¬c0 = '"' := by
          rcases hnum with h | h
          · rw [h]; decide
          · exact ne_of_isDigit c0 '"' h (by decide)
        have hd5 : ¬c0 = '[' := by
          rcases hnum with h | h
          · rw [h]; decide
          · exact ne_of_isDigit c0 '[' h (by decide)
        have hd6 : ¬c0 = lbrace := by
          rcases hnum with h | h
          · rw [h]; decide
          · exact ne_of_isDigit c0 lbrace h (by decide)
        rw [hser, hhead, List.cons_append, parseVal_succ, skipWs_cons _ _ hws]
        simp only [hd1, hd2, hd3, hd4, hd5, hd6, reduceIte, if_false]
        rw [if_pos hnum]
        rw [← List.cons_append, ← hhead, parseNumber_intToChars n rest hrest]
        rfl
      | arr xs =>
        cases xs with
        | nil => rfl
        | cons x xs =>
          obtain ⟨t, hshape, -, -⟩ := serElems_shape x xs
          obtain ⟨c0, cs0, hhead, hws, hne1, hne2⟩ := serializeChars_head x
          have hexp : serializeChars (Json.arr (x :: xs)) ++ rest
              = '[' :: (c0 :: (cs0 ++ (t ++ ']' :: rest))) := by
            show ('[' :: serElems (x :: xs) ++ [']']) ++ rest = _
            rw [hshape, hhead]
            simp
          rw [hexp, parseVal_succ, skipWs_cons _ _ (by decide)]
          simp only [reduceIte]
          rw [skipWs_cons _ _ hws]
          simp only [hne1, reduceIte, if_false]
          have hre : (c0 :: (cs0 ++ (t ++ ']' :: rest)))
              = serElems (x :: xs) ++ ']' :: rest := by
            rw [hshape, hhead]
            simp
          rw [hre]
          have hfe : fuelElems (x :: xs) ≤ f := by
            have : fuelVal (Json.arr (x :: xs)) = 1 + fuelElems (x :: xs) := rfl
            omega
          rw [ihE x xs rest hfe]
          rfl
      | obj kvs =>
        cases kvs with
        | nil => rfl
        | cons kv ms =>
          obtain ⟨k, v⟩ := kv
          have hexp : serializeChars (Json.obj ((k, v) :: ms)) ++ rest
              = lbrace :: (serMems ((k, v) :: ms) ++ rbrace :: rest) := by
            show (lbrace :: serMems ((k, v) :: ms) ++ [rbrace]) ++ rest = _
            simp
          rw [hexp, parseVal_succ, skipWs_cons _ _ (by decide)]
          simp only [reduceIte]
          have hq : ∃ u, serMems ((k, v) :: ms) ++ rbrace :: rest = '"' :: u := by
            cases ms with
            | nil =>
              refine ⟨escapeList k.data ++ '"' :: ':' :: (serializeChars v ++ rbrace :: rest), ?_⟩
              rw [show serMems [(k, v)]
                  = '"' :: escapeList k.data ++ '"' :: ':' :: serializeChars v from rfl]
              simp
            | cons m ms' =>
              refine ⟨escapeList k.data ++ '"' ::
                (':' :: (serializeChars v ++ ',' :: (serMems (m :: ms') ++ rbrace :: rest))), ?_⟩
              rw [show serMems ((k, v) :: m :: ms')
                  = '"' :: escapeList k.data ++ '"' :: ':' :: serializeChars v
                      ++ ',' :: serMems (m :: ms') from rfl]
              simp
          obtain ⟨u, hu⟩ := hq
          rw [hu, skipWs_cons _ _ (by decide)]
          simp only [reduceIte]
          rw [← hu]
          have hfm : fuelMems ((k, v) :: ms) ≤ f := by
            have : fuelVal (Json.obj ((k, v) :: ms)) = 1 + fuelMems ((k, v) :: ms) := rfl
            omega
          rw [ihM k v ms rest hfm]
          rfl
    · intro x xs rest hf
      cases xs with
      | nil =>
        rw [show serElems [x] ++ ']' :: rest = serializeChars x ++ ']' :: rest by
          rw [show serElems [x] = serializeChars x from rfl]]
        rw [parseElems_succ]
        have hfx : fuelVal x ≤ f := by
          have : fuelElems [x] = 1 + max (fuelVal x) 0 := rfl
          omega
        rw [ihV x (']' :: rest) hfx (head_not_digit ']' rest (by decide))]
        rfl
      | cons y ys =>
        have hexp : serElems (x :: y :: ys) ++ ']' :: rest
            = serializeChars x ++ (',' :: (serElems (y :: ys) ++ ']' :: rest)) := by
          rw [show serElems (x :: y :: ys)
              = serializeChars x ++ ',' :: serElems (y :: ys) from rfl]
          simp
        rw [hexp, parseElems_succ]
        have hfx : fuelVal x ≤ f := by
          have : fuelElems (x :: y :: ys)
              = 1 + max (fuelVal x) (fuelElems (y :: ys)) := rfl
          have hmax := Nat.le_max_left (fuelVal x) (fuelElems (y :: ys))
          omega
        rw [ihV x (',' :: (serElems (y :: ys) ++ ']' :: rest)) hfx
          (head_not_digit ',' _ (by decide))]
        dsimp only
        rw [skipWs_cons _ _ (by decide)]
        dsimp only
        rw [if_pos rfl]
        have hfe : fuelElems (y :: ys) ≤ f := by
          have : fuelElems (x :: y :: ys)
              = 1 + max (fuelVal x) (fuelElems (y :: ys)) := rfl
          have hmax := Nat.le_max_right (fuelVal x) (fuelElems (y :: ys))
          omega
        rw [ihE y ys rest hfe]
    · intro k v ms rest hf
      have hfv : fuelVal v ≤ f := by
        have : fuelMems ((k, v) :: ms) = 1 + max (fuelVal v) (fuelMems ms) := rfl
        have hmax := Nat.le_max_left (fuelVal v) (fuelMems ms)
        omega
      cases ms with
      | nil =>
        have hexp : serMems [(k, v)] ++ rbrace :: rest
            = '"' :: (escapeList k.data ++ '"' :: (':' :: (serializeChars v ++ rbrace :: rest))) := by
          rw [show serMems [(k, v)]
              = '"' :: escapeList k.data ++ '"' :: ':' :: serializeChars v from rfl]
          simp
        rw [hexp, parseMems_succ, skipWs_cons _ _ (by decide)]
        simp only [reduceIte]
        rw [parseStringBody_escape k.data (':' :: (serializeChars v ++ rbrace :: rest))]
        dsimp only
        rw [skipWs_cons _ _ (by decide)]
        dsimp only
        rw [if_pos rfl]
        rw [ihV v (rbrace :: rest) hfv (head_not_digit rbrace rest (by decide))]
        dsimp only
        rw [skipWs_cons _ _ (by decide)]
        dsimp only
        rw [if_neg (by decide), if_pos rfl]
      | cons m ms' =>
        have hexp : serMems ((k, v) :: m :: ms') ++ rbrace :: rest
            = '"' :: (escapeList k.data ++ '"' ::
                (':' :: (serializeChars v ++ ',' :: (serMems (m :: ms') ++ rbrace :: rest)))) := by
          rw [show serMems ((k, v) :: m :: ms')
              = '"' :: escapeList k.data ++ '"' :: ':' :: serializeChars v
                  ++ ',' :: serMems (m :: ms') from rfl]
          simp
        rw [hexp, parseMems_succ, skipWs_cons _ _ (by decide)]
        simp only [reduceIte]
        rw [parseStringBody_escape k.data
          (':' :: (serializeChars v ++ ',' :: (serMems (m :: ms') ++ rbrace :: rest)))]
        dsimp only
        rw [skipWs_cons _ _ (by decide)]
        dsimp only
        rw [if_pos rfl]
        rw [ihV v (',' :: (serMems (m :: ms') ++ rbrace :: rest)) hfv
          (head_not_digit ',' _ (by decide))]
        dsimp only
        rw [skipWs_cons _ _ (by decide)]
        dsimp only
        rw [if_pos rfl]
        obtain ⟨mk, mv⟩ := m
        have hfm : fuelMems ((mk, mv) :: ms') ≤ f := by
          have : fuelMems ((k, v) :: (mk, mv) :: ms')
              = 1 + max (fuelVal v) (fuelMems ((mk, mv) :: ms')) := rfl
          have hmax := Nat.le_max_right (fuelVal v) (fuelMems ((mk, mv) :: ms'))
          omega
        rw [ihM mk mv ms' rest hfm]

/-- `intToChars` emits at least one character. -/
theorem intToChars_ne_nil (n : Int) : intToChars n ≠ [] := by
  obtain ⟨c0, cs0, hh, -⟩ := intToChars_head n
  rw [hh]
  simp

mutual

/-- The parser fuel a value needs is at most its serialized length. -/
theorem fuelVal_le : ∀ v : Json, fuelVal v ≤ (serializeChars v).length
  | .null => by simp [fuelVal, serializeChars]
  | .bool b => by cases b <;> simp [fuelVal, serializeChars]
  | .num n => by
    have h := intToChars_ne_nil n
    have : 0 < (intToChars n).length := List.length_pos.mpr h
    show fuelVal (Json.num n) ≤ (intToChars n).length
    rw [show fuelVal (Json.num n) = 1 from rfl]
    omega
  | .str s => by simp [fuelVal, serializeChars]
  | .arr xs => by
    have h := fuelElems_le xs
    show 1 + fuelElems xs ≤ ('[' :: serElems xs ++ [']']).length
    simp only [List.length_cons, List.length_append, List.length_singleton]
    omega
  | .obj kvs => by
    have h := fuelMems_le kvs
    show 1 + fuelMems kvs ≤ (lbrace :: serMems kvs ++ [rbrace]).length
    simp only [List.length_cons, List.length_append, List.length_singleton]
    omega

/-- The parser fuel an element list needs is at most its serialized length
plus one. -/
theorem fuelElems_le : ∀ xs : List Json, fuelElems xs ≤ (serElems xs).length + 1
  | [] => by simp [fuelElems]
  | [x] => by
    have h := fuelVal_le x
    show 1 + max (fuelVal x) (fuelElems []) ≤ (serializeChars x).length + 1
    rw [show fuelElems [] = 0 from rfl]
    have hm : max (fuelVal x) 0 = fuelVal x := Nat.max_zero _
    rw [hm]
    omega
  | x :: y :: ys => by
    have h1 := fuelVal_le x
    have h2 := fuelElems_le (y :: ys)
    show 1 + max (fuelVal x) (fuelElems (y :: ys))
        ≤ (serializeChars x ++ ',' :: serElems (y :: ys)).length + 1
    simp only [List.length_append, List.length_cons]
    have hm : max (fuelVal x) (fuelElems (y :: ys))
        ≤ (serializeChars x).length + (serElems (y :: ys)).length + 1 :=
      Nat.max_le.mpr ⟨by omega, by omega⟩
    omega

/-- The parser fuel a member list needs is at most its serialized length
plus one. -/
theorem fuelMems_le : ∀ ms : List (String × Json), fuelMems ms ≤ (serMems ms).length + 1
  | [] => by simp [fuelMems]
  | [(k, v)] => by
    have h := fuelVal_le v
    show 1 + max (fuelVal v) (fuelMems [])
        ≤ ('"' :: escapeList k.data ++ '"' :: ':' :: serializeChars v).length + 1
    rw [show fuelMems [] = 0 from rfl]
    have hm : max (fuelVal v) 0 = fuelVal v := Nat.max_zero _
    rw [hm]
    simp only [List.length_cons, List.length_append]
    omega
  | (k, v) :: m :: ms' => by
    have h1 := fuelVal_le v
    have h2 := fuelMems_le (m :: ms')
    show 1 + max (fuelVal v) (fuelMems (m :: ms'))
        ≤ ('"' :: escapeList k.data ++ '"' :: ':' :: serializeChars v
            ++ ',' :: serMems (m :: ms')).length + 1
    simp only [List.length_cons, List.length_append]
    have hm : max (fuelVal v) (fuelMems (m :: ms'))
        ≤ (escapeList k.data).length + (serializeChars v).length
            + (serMems (m :: ms')).length + 3 :=
      Nat.max_le.mpr ⟨by omega, by omega⟩
    omega

end

/-- `JSON.parse` inverts `JSON.stringify` (string level). -/
theorem jsonParse_stringify (v : Json) : jsonParse (jsonStringify v) = some v := by
  have hfuel : fuelVal v ≤ (serializeChars v).length + 1 := by
    have := fuelVal_le v
    omega
  have h := (parse_serialize ((serializeChars v).length + 1)).1 v [] hfuel
    (by intro ch hch; simp at hch)
  rw [List.append_nil] at h
  unfold jsonParse
  have hdata : (jsonStringify v).data = serializeChars v := rfl
  have hlen : (jsonStringify v).length = (serializeChars v).length := rfl
  rw [hdata, hlen, h]
  rfl

theorem utf8_decode_encode_char (c : Char) (bs : List Nat) :
    utf8DecodeReplace (utf8EncodeChar c ++ bs) = c :: utf8DecodeReplace bs := by
  have hvalid : c.toNat < 0xD800 ∨ (0xDFFF < c.toNat ∧ c.toNat < 0x110000) := c.valid
  by_cases h1 : c.toNat < 0x80
  · have henc : utf8EncodeChar c = [c.toNat] := by
      unfold utf8EncodeChar
      simp [h1]
    rw [henc, show ([c.toNat] ++ bs) = c.toNat :: bs from rfl]
    rw [utf8DecodeReplace.eq_def]
    dsimp only
    rw [if_pos h1, charOfNat_toNat]
  · by_cases h2 : c.toNat < 0x800
    · have henc : utf8EncodeChar c = [0xC0 + c.toNat / 0x40, 0x80 + c.toNat % 0x40] := by
        unfold utf8EncodeChar
        simp [h1, h2]
      rw [henc, show ([0xC0 + c.toNat / 0x40, 0x80 + c.toNat % 0x40] ++ bs)
          = (0xC0 + c.toNat / 0x40) :: (0x80 + c.toNat % 0x40) :: bs from rfl]
      rw [utf8DecodeReplace.eq_def]
      dsimp only
      rw [if_neg (by omega), if_neg (by omega), if_pos (by omega)]
      rw [if_pos (by simp [byteIn]; omega)]
      have harith : (0xC0 + c.toNat / 0x40 - 0xC0) * 0x40 + (0x80 + c.toNat % 0x40 - 0x80)
          = c.toNat := by omega
      rw [harith, charOfNat_toNat]
    · by_cases h3 : c.toNat < 0x10000
      · have hsur : c.toNat < 0xD800 ∨ 0xDFFF < c.toNat := by
          rcases hvalid with h | h
          · exact Or.inl h
          · exact Or.inr h.1
        have henc : utf8EncodeChar c = [0xE0 + c.toNat / 0x1000,
            0x80 + (c.toNat / 0x40) % 0x40, 0x80 + c.toNat % 0x40] := by
          unfold utf8EncodeChar
          simp [h1, h2, h3]
        rw [henc, show ([0xE0 + c.toNat / 0x1000, 0x80 + (c.toNat / 0x40) % 0x40,
              0x80 + c.toNat % 0x40] ++ bs)
            = (0xE0 + c.toNat / 0x1000) :: (0x80 + (c.toNat / 0x40) % 0x40)
                :: (0x80 + c.toNat % 0x40) :: bs from rfl]
        rw [utf8DecodeReplace.eq_def]
        dsimp only
        rw [if_neg (by omega), if_neg (by omega), if_neg (by omega), if_pos (by omega)]
        have hb2 : byteIn (0x80 + (c.toNat / 0x40) % 0x40)
            (if (0xE0 + c.toNat / 0x1000) = 0xE0 then 0xA0 else 0x80)
            (if (0xE0 + c.toNat / 0x1000) = 0xED then 0x9F else 0xBF) = true := by
          by_cases hE0 : (0xE0 + c.toNat / 0x1000) = 0xE0
          · rw [if_pos hE0, if_neg (by omega)]
            simp [byteIn]
            omega
          · rw [if_neg hE0]
            by_cases hED : (0xE0 + c.toNat / 0x1000) = 0xED
            · rw [if_pos hED]
              simp [byteIn]
              omega
            · rw [if_neg hED]
              simp [byteIn]
              omega
        rw [if_pos hb2]
        rw [if_pos (by simp [byteIn]; omega)]
        have harith : (0xE0 + c.toNat / 0x1000 - 0xE0) * 0x1000
            + (0x80 + (c.toNat / 0x40) % 0x40 - 0x80) * 0x40
            + (0x80 + c.toNat % 0x40 - 0x80) = c.toNat := by omega
        rw [harith, charOfNat_toNat]
      · have hlt : c.toNat < 0x110000 := by
          rcases hvalid with h | h
          · omega
          · exact h.2
        have henc : utf8EncodeChar c = [0xF0 + c.toNat / 0x40000,
            0x80 + (c.toNat / 0x1000) % 0x40, 0x80 + (c.toNat / 0x40) % 0x40,
            0x80 + c.toNat % 0x40] := by
          unfold utf8EncodeChar
          simp [h1, h2, h3]
        rw [henc, show ([0xF0 + c.toNat / 0x40000, 0x80 + (c.toNat / 0x1000) % 0x40,
              0x80 + (c.toNat / 0x40) % 0x40, 0x80 + c.toNat % 0x40] ++ bs)
            = (0xF0 + c.toNat / 0x40000) :: (0x80 + (c.toNat / 0x1000) % 0x40)
                :: (0x80 + (c.toNat / 0x40) % 0x40) :: (0x80 + c.toNat % 0x40) :: bs from rfl]
        rw [utf8DecodeReplace.eq_def]
        dsimp only
        rw [if_neg (by omega), if_neg (by omega), if_neg (by omega), if_neg (by omega),
          if_pos (by omega)]
        have hb2 : byteIn (0x80 + (c.toNat / 0x1000) % 0x40)
            (if (0xF0 + c.toNat / 0x40000) = 0xF0 then 0x90 else 0x80)
            (if (0xF0 + c.toNat / 0x40000) = 0xF4 then 0x8F else 0xBF) = true := by
          by_cases hF0 : (0xF0 + c.toNat / 0x40000) = 0xF0
          · rw [if_pos hF0, if_neg (by omega)]
            simp [byteIn]
            omega
          · rw [if_neg hF0]
            by_cases hF4 : (0xF0 + c.toNat / 0x40000) = 0xF4
            · rw [if_pos hF4]
              simp [byteIn]
              omega
            · rw [if_neg hF4]
              simp [byteIn]
              omega
        rw [if_pos hb2]
        rw [if_pos (by simp [byteIn]; omega)]
        rw [if_pos (by simp [byteIn]; omega)]
        have harith : (0xF0 + c.toNat / 0x40000 - 0xF0) * 0x40000
            + (0x80 + (c.toNat / 0x1000) % 0x40 - 0x80) * 0x1000
            + (0x80 + (c.toNat / 0x40) % 0x40 - 0x80) * 0x40
            + (0x80 + c.toNat % 0x40 - 0x80) = c.toNat := by omega
        rw [harith, charOfNat_toNat]

theorem utf8_decode_encode (cs : List Char) :
    utf8DecodeReplace (utf8Encode cs) = cs := by
  induction cs with
  | nil => rfl
  | cons c cs ih =>
    rw [show utf8Encode (c :: cs) = utf8EncodeChar c ++ utf8Encode cs from rfl]
    rw [utf8_decode_encode_char c (utf8Encode cs), ih]

/-- C8 (confirmed): the outbound serializer (`JSON.stringify` inside
`sendMessage`, then UTF-8 text-frame encoding) and the inbound decode path
(replacement-mode UTF-8 decode, then `JSON.parse`) form a round-trip: for
every value `sendMessage` can accept and serialize (any `Json` value; with
distinct object keys, as JavaScript objects guarantee), decoding the
serialized form yields a value equal to the input — plain structural
equality, which implies key-order-insensitive equality. -/
theorem sendMessage_decode_roundtrip (v : Json) (h : wfKeys v = true) :
    (∀ (dbg : Bool) (wsPeer : Option Nat),
      (sendMessageModel dbg wsPeer v).sent = (jsonStringify v).data) ∧
    jsonParse (decodeFrame (utf8Encode (jsonStringify v).data)) = some v ∧
    jsonParse (jsonStringify v) = some v := by
  refine ⟨fun dbg wsPeer => rfl, ?_, jsonParse_stringify v⟩
  show jsonParse (String.mk (utf8DecodeReplace (utf8Encode (jsonStringify v).data))) = some v
  rw [utf8_decode_encode]
  show jsonParse (jsonStringify v) = some v
  exact jsonParse_stringify v

/-- Witness for C8 at a nested object with array, string (with an escape),
negative number, boolean and null members. -/
theorem sendMessage_decode_roundtrip_witness :
    wfKeys (Json.obj [("a", Json.arr [Json.num 1, Json.num (-20), Json.str "x\n"]),
      ("b", Json.bool true), ("c", Json.null)]) = true ∧
    jsonParse (decodeFrame (utf8Encode (jsonStringify
        (Json.obj [("a", Json.arr [Json.num 1, Json.num (-20), Json.str "x\n"]),
          ("b", Json.bool true), ("c", Json.null)])).data))
      = some (Json.obj [("a", Json.arr [Json.num 1, Json.num (-20), Json.str "x\n"]),
          ("b", Json.bool true), ("c", Json.null)]) :=
  ⟨by decide,
    (sendMessage_decode_roundtrip
      (Json.obj [("a", Json.arr [Json.num 1, Json.num (-20), Json.str "x\n"]),
        ("b", Json.bool true), ("c", Json.null)]) (by decide)).2.1⟩

end WtTracker

